import Mathlib

/-!
Verification development for the msplot test-network pipeline
(`create_test_network.py`): feature extraction, blank subtraction,
MS2 spectral alignment with cosine scoring, and network construction
with the connected/singleton node-selection policy.

Numeric values are embedded as exact rationals; the one real-valued
quantity (the cosine score, whose denominator is a product of Euclidean
norms) lives in `ℝ`, with a decidable threshold test `simGE` proved
equivalent to the real comparison.
-/

namespace Msplot

/-- Feature record as built by `extract_features_from_mzml`
(create_test_network.py lines 146-152 and 236-242): representative m/z,
retention time (minutes, 0 if unknown), representative intensity, source
run name, and the blank flag. -/
structure Feature where
  mz : ℚ
  rt : ℚ
  intensity : ℚ
  file : String
  is_blank : Bool
deriving DecidableEq

/-- A (fragment) spectrum: a list of (m/z, intensity) peaks. -/
abbrev Spectrum := List (ℚ × ℚ)

/-- Association-list lookup mirroring Python dict access: the first pair
with the given key wins (dict keys are unique, so this is exact). -/
def alookup {α β : Type} [DecidableEq α] : List (α × β) → α → Option β
  | [], _ => none
  | (k, v) :: t, a => if k = a then some v else alookup t a

/-- Association-list assignment mirroring Python `d[k] = v`: an existing
key keeps its position and gets the new value, a new key is appended. -/
def aupdate {α β : Type} [DecidableEq α] : List (α × β) → α → β → List (α × β)
  | [], a, b => [(a, b)]
  | (k, v) :: t, a, b => if k = a then (k, b) :: t else (k, v) :: aupdate t a b

/-- Fuel-indexed two-cursor merge of `cosine_similarity_ms2`'s alignment
loop (lines 63-92): heads within `tol` of each other are merged at their
average m/z keeping both intensities; otherwise the smaller-m/z head is
emitted against a zero intensity on the other side and only its cursor
advances; a spent cursor flushes the other list against zeros. Any fuel
at least the total length makes the walk total (`alignSpectra` supplies
exactly that), and the fuel keeps the recursion structural so concrete
runs reduce in the kernel. -/
def alignGo : ℕ → Spectrum → Spectrum → ℚ → Spectrum × Spectrum
  | _, [], s2, _ => (s2.map (fun p => (p.1, 0)), s2)
  | _, s1, [], _ => (s1, s1.map (fun p => (p.1, 0)))
  | fuel + 1, (mz1, i1) :: t1, (mz2, i2) :: t2, tol =>
    if |mz1 - mz2| ≤ tol then
      let r := alignGo fuel t1 t2 tol
      (((mz1 + mz2) / 2, i1) :: r.1, ((mz1 + mz2) / 2, i2) :: r.2)
    else if mz1 < mz2 then
      let r := alignGo fuel t1 ((mz2, i2) :: t2) tol
      ((mz1, i1) :: r.1, (mz1, 0) :: r.2)
    else
      let r := alignGo fuel ((mz1, i1) :: t1) t2 tol
      ((mz2, 0) :: r.1, (mz2, i2) :: r.2)
  | 0, _ :: _, _ :: _, _ => ([], [])

/-- The aligned pair of peak lists of `cosine_similarity_ms2`
(`aligned1`, `aligned2` at lines 60-92). -/
def alignSpectra (s1 s2 : Spectrum) (tol : ℚ) : Spectrum × Spectrum :=
  alignGo (s1.length + s2.length) s1 s2 tol

/-- The intensity vector of an aligned peak list (line 95-96). -/
def intensities (l : Spectrum) : List ℚ := l.map Prod.snd

/-- Dot product of two intensity vectors (line 99). -/
def dotProd : List ℚ → List ℚ → ℚ
  | a :: as_, b :: bs => a * b + dotProd as_ bs
  | _, _ => 0

/-- Squared Euclidean norm of an intensity vector: `np.linalg.norm` at
lines 100-101 is the square root of this, and that root is zero exactly
when this is zero. -/
def normSq : List ℚ → ℚ
  | [] => 0
  | a :: as_ => a * a + normSq as_

/-- Cosine similarity of two MS2 spectra (`cosine_similarity_ms2`,
lines 51-106): 0 for an empty input, 0 when either aligned intensity
vector has zero norm (the float test `norm == 0` holds exactly when the
squared norm is zero, see `sqrt_normSq_eq_zero_iff`), else the dot
product over the product of Euclidean norms. -/
noncomputable def cosine_similarity_ms2 (s1 s2 : Spectrum) (tol : ℚ) : ℝ :=
  if s1 = [] ∨ s2 = [] then 0
  else
    let v1 := intensities (alignSpectra s1 s2 tol).1
    let v2 := intensities (alignSpectra s1 s2 tol).2
    if normSq v1 = 0 ∨ normSq v2 = 0 then 0
    else ((dotProd v1 v2 : ℚ) : ℝ) /
      (Real.sqrt ((normSq v1 : ℚ) : ℝ) * Real.sqrt ((normSq v2 : ℚ) : ℝ))

/-- Decidable form of the edge test `similarity_matrix[i, j] >=
similarity_threshold` (line 364): `simGE s1 s2 tol t` decides whether
`t ≤ cosine_similarity_ms2 s1 s2 tol`, by comparing squares against the
squared norms instead of taking square roots. `simGE_iff` proves the
equivalence with the real-valued comparison. -/
def simGE (s1 s2 : Spectrum) (tol t : ℚ) : Bool :=
  if s1 = [] ∨ s2 = [] then decide (t ≤ 0)
  else
    let v1 := intensities (alignSpectra s1 s2 tol).1
    let v2 := intensities (alignSpectra s1 s2 tol).2
    let d := dotProd v1 v2
    let n1 := normSq v1
    let n2 := normSq v2
    if n1 = 0 ∨ n2 = 0 then decide (t ≤ 0)
    else if t ≤ 0 then decide (0 ≤ d) || decide (d * d ≤ t * t * (n1 * n2))
    else decide (0 ≤ d) && decide (t * t * (n1 * n2) ≤ d * d)

theorem normSq_nonneg (v : List ℚ) : 0 ≤ normSq v := by
  induction v with
  | nil => simp [normSq]
  | cons a as_ ih => simpa [normSq] using add_nonneg (mul_self_nonneg a) ih

/-- The float test `np.linalg.norm(v) == 0` of line 103 holds exactly
when the (rational) squared norm is zero. -/
theorem sqrt_normSq_eq_zero_iff (v : List ℚ) :
    Real.sqrt ((normSq v : ℚ) : ℝ) = 0 ↔ normSq v = 0 := by
  rw [Real.sqrt_eq_zero (by exact_mod_cast normSq_nonneg v)]
  exact_mod_cast Iff.rfl

theorem alignGo_length_eq (fuel : ℕ) (s1 s2 : Spectrum) (tol : ℚ) :
    (alignGo fuel s1 s2 tol).1.length = (alignGo fuel s1 s2 tol).2.length := by
  induction fuel generalizing s1 s2 with
  | zero => cases s1 <;> cases s2 <;> simp [alignGo]
  | succ n ih =>
    cases s1 with
    | nil => simp [alignGo]
    | cons p1 t1 =>
      cases s2 with
      | nil => simp [alignGo]
      | cons p2 t2 =>
        obtain ⟨mz1, i1⟩ := p1
        obtain ⟨mz2, i2⟩ := p2
        simp only [alignGo]
        split_ifs <;> simp [ih]

theorem alignGo_length_ge (fuel : ℕ) (s1 s2 : Spectrum) (tol : ℚ)
    (h : s1.length + s2.length ≤ fuel) :
    max s1.length s2.length ≤ (alignGo fuel s1 s2 tol).1.length := by
  induction fuel generalizing s1 s2 with
  | zero =>
    cases s1 <;> cases s2 <;> simp_all [alignGo]
  | succ n ih =>
    cases s1 with
    | nil => simp [alignGo]
    | cons p1 t1 =>
      cases s2 with
      | nil => simp [alignGo]
      | cons p2 t2 =>
        obtain ⟨mz1, i1⟩ := p1
        obtain ⟨mz2, i2⟩ := p2
        simp only [List.length_cons] at h
        simp only [alignGo]
        split_ifs
        · have := ih t1 t2 (by omega)
          simp only [List.length_cons]
          omega
        · have := ih t1 ((mz2, i2) :: t2) (by simp; omega)
          simp only [List.length_cons] at this ⊢
          omega
        · have := ih ((mz1, i1) :: t1) t2 (by simp; omega)
          simp only [List.length_cons] at this ⊢
          omega

theorem alignGo_swap (fuel : ℕ) (s1 s2 : Spectrum) (tol : ℚ) (ht : 0 ≤ tol) :
    alignGo fuel s2 s1 tol = ((alignGo fuel s1 s2 tol).2, (alignGo fuel s1 s2 tol).1) := by
  induction fuel generalizing s1 s2 with
  | zero => cases s1 <;> cases s2 <;> simp [alignGo]
  | succ n ih =>
    cases s1 with
    | nil => cases s2 <;> simp [alignGo]
    | cons p1 t1 =>
      cases s2 with
      | nil => simp [alignGo]
      | cons p2 t2 =>
        obtain ⟨mz1, i1⟩ := p1
        obtain ⟨mz2, i2⟩ := p2
        by_cases hm : |mz1 - mz2| ≤ tol
        · have hm' : |mz2 - mz1| ≤ tol := by rwa [abs_sub_comm]
          simp only [alignGo, if_pos hm, if_pos hm', ih t1 t2]
          rw [add_comm mz2 mz1]
        · have hm' : ¬ |mz2 - mz1| ≤ tol := by rwa [abs_sub_comm]
          rcases lt_trichotomy mz1 mz2 with hlt | heq | hgt
          · have hnlt : ¬ mz2 < mz1 := not_lt.mpr hlt.le
            simp only [alignGo, if_neg hm, if_neg hm', if_pos hlt, if_neg hnlt,
              ih t1 ((mz2, i2) :: t2)]
          · exact absurd (by simp [heq]; exact ht) hm
          · have hnlt : ¬ mz1 < mz2 := not_lt.mpr hgt.le
            simp only [alignGo, if_neg hm, if_neg hm', if_pos hgt, if_neg hnlt,
              ih ((mz1, i1) :: t1) t2]

theorem dotProd_comm (v w : List ℚ) : dotProd v w = dotProd w v := by
  induction v generalizing w with
  | nil => cases w <;> simp [dotProd]
  | cons a as_ ih => cases w <;> simp [dotProd, ih, mul_comm]

theorem intensities_map_zero (l : Spectrum) :
    List.map (Prod.snd ∘ fun p : ℚ × ℚ => (p.1, (0 : ℚ))) l =
      List.replicate l.length 0 := by
  induction l with
  | nil => simp
  | cons p t ih => simp [ih, List.replicate_succ]

theorem normSq_replicate_zero (n : ℕ) : normSq (List.replicate n (0 : ℚ)) = 0 := by
  induction n with
  | zero => simp [normSq]
  | succ k ih => simpa [List.replicate_succ, normSq] using ih

theorem normSq_alignGo_fst (fuel : ℕ) (s1 s2 : Spectrum) (tol : ℚ)
    (h : s1.length + s2.length ≤ fuel) :
    normSq (intensities (alignGo fuel s1 s2 tol).1) = normSq (intensities s1) := by
  induction fuel generalizing s1 s2 with
  | zero =>
    cases s1 with
    | nil => simp [alignGo, intensities_map_zero, normSq_replicate_zero, intensities, normSq]
    | cons p t => cases s2 <;> simp_all
  | succ n ih =>
    cases s1 with
    | nil => simp [alignGo, intensities_map_zero, normSq_replicate_zero, intensities, normSq]
    | cons p1 t1 =>
      cases s2 with
      | nil => simp [alignGo]
      | cons p2 t2 =>
        obtain ⟨mz1, i1⟩ := p1
        obtain ⟨mz2, i2⟩ := p2
        simp only [List.length_cons] at h
        simp only [alignGo]
        split_ifs
        · have hr := ih t1 t2 (by omega)
          simp only [intensities, List.map_cons, normSq] at hr ⊢
          rw [hr]
        · have hr := ih t1 ((mz2, i2) :: t2) (by simp; omega)
          simp only [intensities, List.map_cons, normSq] at hr ⊢
          rw [hr]
        · have hr := ih ((mz1, i1) :: t1) t2 (by simp; omega)
          simp only [intensities, List.map_cons, normSq] at hr ⊢
          rw [hr]
          simp [normSq]

theorem normSq_alignGo_snd (fuel : ℕ) (s1 s2 : Spectrum) (tol : ℚ)
    (h : s1.length + s2.length ≤ fuel) :
    normSq (intensities (alignGo fuel s1 s2 tol).2) = normSq (intensities s2) := by
  induction fuel generalizing s1 s2 with
  | zero =>
    cases s1 with
    | nil => simp [alignGo]
    | cons p t => cases s2 <;> simp_all
  | succ n ih =>
    cases s1 with
    | nil => simp [alignGo]
    | cons p1 t1 =>
      cases s2 with
      | nil =>
        simp [alignGo, intensities_map_zero, normSq_replicate_zero, intensities, normSq]
      | cons p2 t2 =>
        obtain ⟨mz1, i1⟩ := p1
        obtain ⟨mz2, i2⟩ := p2
        simp only [List.length_cons] at h
        simp only [alignGo]
        split_ifs
        · have hr := ih t1 t2 (by omega)
          simp only [intensities, List.map_cons, normSq] at hr ⊢
          rw [hr]
        · have hr := ih t1 ((mz2, i2) :: t2) (by simp; omega)
          simp only [intensities, List.map_cons, normSq] at hr ⊢
          rw [hr]
          simp [normSq]
        · have hr := ih ((mz1, i1) :: t1) t2 (by simp; omega)
          simp only [intensities, List.map_cons, normSq] at hr ⊢
          rw [hr]

theorem dotProd_zero_left (n : ℕ) (w : List ℚ) :
    dotProd (List.replicate n (0 : ℚ)) w = 0 := by
  induction n generalizing w with
  | zero => simp [dotProd]
  | succ k ih => cases w <;> simp [List.replicate_succ, dotProd, ih]

theorem dotProd_zero_right (v : List ℚ) (n : ℕ) :
    dotProd v (List.replicate n (0 : ℚ)) = 0 := by
  induction v generalizing n with
  | nil => simp [dotProd]
  | cons a as_ ih => cases n <;> simp [List.replicate_succ, dotProd, ih]

theorem dotProd_alignGo_neg (fuel : ℕ) (s1 s2 : Spectrum) (tol : ℚ) (ht : tol < 0) :
    dotProd (intensities (alignGo fuel s1 s2 tol).1)
      (intensities (alignGo fuel s1 s2 tol).2) = 0 := by
  induction fuel generalizing s1 s2 with
  | zero =>
    cases s1 with
    | nil => simp [alignGo, intensities, List.map_map, intensities_map_zero,
        dotProd_zero_left]
    | cons p t => cases s2 <;>
        simp [alignGo, intensities, List.map_map, intensities_map_zero,
          dotProd_zero_left, dotProd_zero_right, dotProd]
  | succ n ih =>
    cases s1 with
    | nil => simp [alignGo, intensities, List.map_map, intensities_map_zero,
        dotProd_zero_left]
    | cons p1 t1 =>
      cases s2 with
      | nil => simp [alignGo, intensities, List.map_map, intensities_map_zero,
          dotProd_zero_left, dotProd_zero_right, dotProd]
      | cons p2 t2 =>
        obtain ⟨mz1, i1⟩ := p1
        obtain ⟨mz2, i2⟩ := p2
        have hm : ¬ |mz1 - mz2| ≤ tol := fun hc =>
          absurd (le_trans (abs_nonneg _) hc) (not_le.mpr ht)
        simp only [alignGo, if_neg hm]
        split_ifs
        · simpa [intensities, dotProd] using ih t1 ((mz2, i2) :: t2)
        · simpa [intensities, dotProd] using ih ((mz1, i1) :: t1) t2

theorem alignSpectra_swap (s1 s2 : Spectrum) (tol : ℚ) (ht : 0 ≤ tol) :
    alignSpectra s2 s1 tol = ((alignSpectra s1 s2 tol).2, (alignSpectra s1 s2 tol).1) := by
  unfold alignSpectra
  rw [Nat.add_comm s2.length]
  exact alignGo_swap _ _ _ _ ht

theorem normSq_alignSpectra_fst (s1 s2 : Spectrum) (tol : ℚ) :
    normSq (intensities (alignSpectra s1 s2 tol).1) = normSq (intensities s1) :=
  normSq_alignGo_fst _ _ _ _ le_rfl

theorem normSq_alignSpectra_snd (s1 s2 : Spectrum) (tol : ℚ) :
    normSq (intensities (alignSpectra s1 s2 tol).2) = normSq (intensities s2) :=
  normSq_alignGo_snd _ _ _ _ le_rfl

theorem dotProd_alignSpectra_comm (s1 s2 : Spectrum) (tol : ℚ) :
    dotProd (intensities (alignSpectra s2 s1 tol).1)
        (intensities (alignSpectra s2 s1 tol).2) =
      dotProd (intensities (alignSpectra s1 s2 tol).1)
        (intensities (alignSpectra s1 s2 tol).2) := by
  rcases le_or_lt 0 tol with ht | ht
  · rw [alignSpectra_swap s1 s2 tol ht]
    exact dotProd_comm _ _
  · rw [alignSpectra, alignSpectra, dotProd_alignGo_neg _ _ _ _ ht,
      dotProd_alignGo_neg _ _ _ _ ht]

/-- C7: for every pair of fragment spectra and every m/z tolerance, the
cosine similarity computed by `cosine_similarity_ms2` is symmetric in its
two spectrum arguments. -/
theorem C7_cosine_similarity_symmetric (s1 s2 : Spectrum) (tol : ℚ) :
    cosine_similarity_ms2 s1 s2 tol = cosine_similarity_ms2 s2 s1 tol := by
  by_cases h1 : s1 = []
  · by_cases h2 : s2 = [] <;> simp [cosine_similarity_ms2, h1, h2]
  · by_cases h2 : s2 = []
    · simp [cosine_similarity_ms2, h1, h2]
    · have hne : ¬(s1 = [] ∨ s2 = []) := by simp [h1, h2]
      have hne' : ¬(s2 = [] ∨ s1 = []) := by simp [h1, h2]
      simp only [cosine_similarity_ms2, if_neg hne, if_neg hne']
      rw [normSq_alignSpectra_fst s1 s2, normSq_alignSpectra_snd s1 s2,
        normSq_alignSpectra_fst s2 s1, normSq_alignSpectra_snd s2 s1,
        dotProd_alignSpectra_comm s1 s2]
      by_cases hzz : normSq (intensities s1) = 0 ∨ normSq (intensities s2) = 0
      · rw [if_pos hzz, if_pos hzz.symm]
      · have hzz' : ¬(normSq (intensities s2) = 0 ∨ normSq (intensities s1) = 0) :=
          fun hc => hzz hc.symm
        rw [if_neg hzz, if_neg hzz', mul_comm]

/-- Core arithmetic of `simGE_iff`: the square-comparison boolean decides
the real threshold comparison against a quotient of square roots. -/
theorem squareTest_iff_le_div (dq q1 q2 t : ℚ) (h1 : 0 < q1) (h2 : 0 < q2) :
    ((if t ≤ 0 then decide (0 ≤ dq) || decide (dq * dq ≤ t * t * (q1 * q2))
      else decide (0 ≤ dq) && decide (t * t * (q1 * q2) ≤ dq * dq)) = true) ↔
      (t : ℝ) ≤ ((dq : ℚ) : ℝ) /
        (Real.sqrt ((q1 : ℚ) : ℝ) * Real.sqrt ((q2 : ℚ) : ℝ)) := by
  have hN1 : (0 : ℝ) < ((q1 : ℚ) : ℝ) := by exact_mod_cast h1
  have hN2 : (0 : ℝ) < ((q2 : ℚ) : ℝ) := by exact_mod_cast h2
  have hS1 : 0 < Real.sqrt ((q1 : ℚ) : ℝ) := Real.sqrt_pos.mpr hN1
  have hS2 : 0 < Real.sqrt ((q2 : ℚ) : ℝ) := Real.sqrt_pos.mpr hN2
  have hS : 0 < Real.sqrt ((q1 : ℚ) : ℝ) * Real.sqrt ((q2 : ℚ) : ℝ) := mul_pos hS1 hS2
  have hSS : (Real.sqrt ((q1 : ℚ) : ℝ) * Real.sqrt ((q2 : ℚ) : ℝ)) *
      (Real.sqrt ((q1 : ℚ) : ℝ) * Real.sqrt ((q2 : ℚ) : ℝ)) =
      ((q1 : ℚ) : ℝ) * ((q2 : ℚ) : ℝ) := by
    rw [mul_mul_mul_comm, Real.mul_self_sqrt hN1.le, Real.mul_self_sqrt hN2.le]
  rw [le_div_iff hS]
  by_cases ht0 : t ≤ 0
  · have hts : ((t : ℚ) : ℝ) ≤ 0 := by exact_mod_cast ht0
    simp only [if_pos ht0, Bool.or_eq_true, decide_eq_true_eq]
    constructor
    · rintro (hd | hdd)
      · have hD : (0 : ℝ) ≤ ((dq : ℚ) : ℝ) := by exact_mod_cast hd
        have := mul_nonpos_of_nonpos_of_nonneg hts hS.le
        linarith
      · have hDD : ((dq : ℚ) : ℝ) * ((dq : ℚ) : ℝ) ≤
            ((t : ℚ) : ℝ) * ((t : ℚ) : ℝ) * (((q1 : ℚ) : ℝ) * ((q2 : ℚ) : ℝ)) := by
          exact_mod_cast hdd
        have hrw : ((t : ℚ) : ℝ) * ((t : ℚ) : ℝ) * (((q1 : ℚ) : ℝ) * ((q2 : ℚ) : ℝ)) =
            (((t : ℚ) : ℝ) * (Real.sqrt ((q1 : ℚ) : ℝ) * Real.sqrt ((q2 : ℚ) : ℝ))) *
              (((t : ℚ) : ℝ) * (Real.sqrt ((q1 : ℚ) : ℝ) * Real.sqrt ((q2 : ℚ) : ℝ))) := by
          rw [← hSS]; ring
        have h3 := Real.sqrt_le_sqrt (hrw ▸ hDD)
        rw [Real.sqrt_mul_self_eq_abs, Real.sqrt_mul_self_eq_abs] at h3
        have habs : |((t : ℚ) : ℝ) * (Real.sqrt ((q1 : ℚ) : ℝ) * Real.sqrt ((q2 : ℚ) : ℝ))| =
            -(((t : ℚ) : ℝ) * (Real.sqrt ((q1 : ℚ) : ℝ) * Real.sqrt ((q2 : ℚ) : ℝ))) :=
          abs_of_nonpos (mul_nonpos_of_nonpos_of_nonneg hts hS.le)
        rw [habs] at h3
        have := neg_abs_le ((dq : ℚ) : ℝ)
        linarith
    · intro hts'
      by_cases hd0 : (0 : ℚ) ≤ dq
      · exact Or.inl hd0
      · right
        have hD : ((dq : ℚ) : ℝ) < 0 := by exact_mod_cast not_le.mp hd0
        have h4 : -((dq : ℚ) : ℝ) ≤
            -(((t : ℚ) : ℝ) * (Real.sqrt ((q1 : ℚ) : ℝ) * Real.sqrt ((q2 : ℚ) : ℝ))) := by
          linarith
        have h5 := mul_self_le_mul_self (by linarith : (0 : ℝ) ≤ -((dq : ℚ) : ℝ)) h4
        have h6 : ((dq : ℚ) : ℝ) * ((dq : ℚ) : ℝ) ≤
            ((t : ℚ) : ℝ) * ((t : ℚ) : ℝ) * (((q1 : ℚ) : ℝ) * ((q2 : ℚ) : ℝ)) := by
          nlinarith [hSS]
        exact_mod_cast h6
  · have htpos : (0 : ℝ) < ((t : ℚ) : ℝ) := by exact_mod_cast not_le.mp ht0
    simp only [if_neg ht0, Bool.and_eq_true, decide_eq_true_eq]
    constructor
    · rintro ⟨hd0, hdd⟩
      have hD0 : (0 : ℝ) ≤ ((dq : ℚ) : ℝ) := by exact_mod_cast hd0
      have hDD : ((t : ℚ) : ℝ) * ((t : ℚ) : ℝ) * (((q1 : ℚ) : ℝ) * ((q2 : ℚ) : ℝ)) ≤
          ((dq : ℚ) : ℝ) * ((dq : ℚ) : ℝ) := by exact_mod_cast hdd
      have hTS : (0 : ℝ) ≤ ((t : ℚ) : ℝ) *
          (Real.sqrt ((q1 : ℚ) : ℝ) * Real.sqrt ((q2 : ℚ) : ℝ)) :=
        mul_nonneg htpos.le hS.le
      have h6 : (((t : ℚ) : ℝ) * (Real.sqrt ((q1 : ℚ) : ℝ) * Real.sqrt ((q2 : ℚ) : ℝ))) *
          (((t : ℚ) : ℝ) * (Real.sqrt ((q1 : ℚ) : ℝ) * Real.sqrt ((q2 : ℚ) : ℝ))) ≤
          ((dq : ℚ) : ℝ) * ((dq : ℚ) : ℝ) := by
        nlinarith [hSS]
      have h7 := Real.sqrt_le_sqrt h6
      rw [Real.sqrt_mul_self_eq_abs, Real.sqrt_mul_self_eq_abs,
        abs_of_nonneg hTS, abs_of_nonneg hD0] at h7
      exact h7
    · intro hts'
      have hD0 : (0 : ℝ) < ((dq : ℚ) : ℝ) := lt_of_lt_of_le (mul_pos htpos hS) hts'
      refine ⟨by exact_mod_cast hD0.le, ?_⟩
      have h8 := mul_self_le_mul_self (mul_pos htpos hS).le hts'
      have h9 : ((t : ℚ) : ℝ) * ((t : ℚ) : ℝ) * (((q1 : ℚ) : ℝ) * ((q2 : ℚ) : ℝ)) ≤
          ((dq : ℚ) : ℝ) * ((dq : ℚ) : ℝ) := by nlinarith [hSS]
      exact_mod_cast h9

/-- The boolean edge test `simGE` decides exactly the real comparison
`similarity_threshold ≤ cosine_similarity_ms2 …` used at line 364. -/
theorem simGE_iff (s1 s2 : Spectrum) (tol t : ℚ) :
    simGE s1 s2 tol t = true ↔ (t : ℝ) ≤ cosine_similarity_ms2 s1 s2 tol := by
  by_cases he : s1 = [] ∨ s2 = []
  · simp only [simGE, cosine_similarity_ms2, if_pos he, decide_eq_true_eq]
    exact ⟨fun h => by exact_mod_cast h, fun h => by exact_mod_cast h⟩
  · by_cases hz : normSq (intensities (alignSpectra s1 s2 tol).1) = 0 ∨
        normSq (intensities (alignSpectra s1 s2 tol).2) = 0
    · simp only [simGE, cosine_similarity_ms2, if_neg he, if_pos hz, decide_eq_true_eq]
      exact ⟨fun h => by exact_mod_cast h, fun h => by exact_mod_cast h⟩
    · have h1 : 0 < normSq (intensities (alignSpectra s1 s2 tol).1) :=
        lt_of_le_of_ne (normSq_nonneg _) (fun hc => hz (Or.inl hc.symm))
      have h2 : 0 < normSq (intensities (alignSpectra s1 s2 tol).2) :=
        lt_of_le_of_ne (normSq_nonneg _) (fun hc => hz (Or.inr hc.symm))
      simp only [simGE, cosine_similarity_ms2, if_neg he, if_neg hz]
      exact squareTest_iff_le_div _ _ _ _ h1 h2

/-- C8: the cosine similarity returns exactly 0 when either input
spectrum is empty or either aligned intensity vector has Euclidean norm
exactly zero; and when both spectra are nonempty and both norms nonzero,
the returned value is the dot product divided by the product of the two
norms, whose product is nonzero (so the division never divides by zero). -/
theorem C8_cosine_zero_and_no_div_by_zero (s1 s2 : Spectrum) (tol : ℚ) :
    ((s1 = [] ∨ s2 = [] ∨
        Real.sqrt ((normSq (intensities (alignSpectra s1 s2 tol).1) : ℚ) : ℝ) = 0 ∨
        Real.sqrt ((normSq (intensities (alignSpectra s1 s2 tol).2) : ℚ) : ℝ) = 0) →
      cosine_similarity_ms2 s1 s2 tol = 0) ∧
    (s1 ≠ [] → s2 ≠ [] →
      Real.sqrt ((normSq (intensities (alignSpectra s1 s2 tol).1) : ℚ) : ℝ) ≠ 0 →
      Real.sqrt ((normSq (intensities (alignSpectra s1 s2 tol).2) : ℚ) : ℝ) ≠ 0 →
      Real.sqrt ((normSq (intensities (alignSpectra s1 s2 tol).1) : ℚ) : ℝ) *
        Real.sqrt ((normSq (intensities (alignSpectra s1 s2 tol).2) : ℚ) : ℝ) ≠ 0 ∧
      cosine_similarity_ms2 s1 s2 tol =
        ((dotProd (intensities (alignSpectra s1 s2 tol).1)
            (intensities (alignSpectra s1 s2 tol).2) : ℚ) : ℝ) /
          (Real.sqrt ((normSq (intensities (alignSpectra s1 s2 tol).1) : ℚ) : ℝ) *
            Real.sqrt ((normSq (intensities (alignSpectra s1 s2 tol).2) : ℚ) : ℝ))) := by
  constructor
  · rintro (h | h | h | h)
    · simp [cosine_similarity_ms2, h]
    · simp [cosine_similarity_ms2, h]
    · have hq := (sqrt_normSq_eq_zero_iff _).mp h
      by_cases he : s1 = [] ∨ s2 = []
      · simp [cosine_similarity_ms2, he]
      · simp only [cosine_similarity_ms2, if_neg he]
        rw [if_pos (Or.inl hq)]
    · have hq := (sqrt_normSq_eq_zero_iff _).mp h
      by_cases he : s1 = [] ∨ s2 = []
      · simp [cosine_similarity_ms2, he]
      · simp only [cosine_similarity_ms2, if_neg he]
        rw [if_pos (Or.inr hq)]
  · intro h1 h2 hn1 hn2
    have hq1 : normSq (intensities (alignSpectra s1 s2 tol).1) ≠ 0 := fun hc =>
      hn1 ((sqrt_normSq_eq_zero_iff _).mpr hc)
    have hq2 : normSq (intensities (alignSpectra s1 s2 tol).2) ≠ 0 := fun hc =>
      hn2 ((sqrt_normSq_eq_zero_iff _).mpr hc)
    refine ⟨mul_ne_zero hn1 hn2, ?_⟩
    have he : ¬(s1 = [] ∨ s2 = []) := by simp [h1, h2]
    have hz : ¬(normSq (intensities (alignSpectra s1 s2 tol).1) = 0 ∨
        normSq (intensities (alignSpectra s1 s2 tol).2) = 0) := by
      rintro (h | h)
      exacts [hq1 h, hq2 h]
    simp only [cosine_similarity_ms2, if_neg he, if_neg hz]

/-- C9: for every pair of nonempty fragment spectra sorted by m/z and
every tolerance, the two aligned intensity lists produced by the merge
have equal length, and that common length is at least the length of the
longer input. -/
theorem C9_aligned_lengths (s1 s2 : Spectrum) (tol : ℚ)
    (h1 : s1 ≠ []) (h2 : s2 ≠ [])
    (hs1 : List.Chain' (fun p q : ℚ × ℚ => p.1 ≤ q.1) s1)
    (hs2 : List.Chain' (fun p q : ℚ × ℚ => p.1 ≤ q.1) s2) :
    (alignSpectra s1 s2 tol).1.length = (alignSpectra s1 s2 tol).2.length ∧
    max s1.length s2.length ≤ (alignSpectra s1 s2 tol).1.length :=
  ⟨alignGo_length_eq _ _ _ _, alignGo_length_ge _ _ _ _ le_rfl⟩

/-- C9 witness: the alignment of two concrete sorted spectra, with the
hypotheses discharged at that input. -/
theorem C9_aligned_lengths_witness :
    (alignSpectra [((100 : ℚ), (1 : ℚ)), (110, 2)] [((100 : ℚ), (5 : ℚ))]
        (1 / 50)).1.length =
      (alignSpectra [((100 : ℚ), (1 : ℚ)), (110, 2)] [((100 : ℚ), (5 : ℚ))]
        (1 / 50)).2.length ∧
    max (List.length [((100 : ℚ), (1 : ℚ)), (110, 2)])
        (List.length [((100 : ℚ), (5 : ℚ))]) ≤
      (alignSpectra [((100 : ℚ), (1 : ℚ)), (110, 2)] [((100 : ℚ), (5 : ℚ))]
        (1 / 50)).1.length :=
  C9_aligned_lengths _ _ _ (by simp) (by simp)
    (by simp [List.chain'_cons]; norm_num) (by simp)

/-- Feature identities as assigned by `extract_features_from_mzml`: MS1
features get sequential identities from `feature_counter` (line 143),
MS2-synthesized features from `ms2_count` (line 235); the two name
families are disjoint. -/
inductive FeatureId where
  | ms1 (n : ℕ)
  | ms2syn (n : ℕ)
deriving DecidableEq

/-- One spectrum record as the scan reader hands it to
`extract_features_from_mzml`: MS level, retention time in minutes (none
when absent), the raw peak list, and the collaborator-provided precursor
m/z for MS2 scans (none when unobtainable, lines 158-201). -/
structure SpecRec where
  ms_level : ℕ
  rt : Option ℚ
  peaks : List (ℚ × ℚ)
  precursor_mz : Option ℚ

/-- The stored retention time `rt if rt else 0.0` (lines 148, 238):
a missing or zero scan time is stored as 0. -/
def rtStored (rt : Option ℚ) : ℚ := rt.getD 0

/-- Test `diff < min_diff` of line 225: `none` plays `min_diff = inf`. -/
def beatsMin {α : Type} (acc : Option (α × ℚ)) (d : ℚ) : Bool :=
  match acc with
  | none => true
  | some z => decide (d < z.2)

/-- Inner loop at lines 222-227: the best feature so far and its
difference, updated by a strict improvement that is also inside the
tolerance; blank features are skipped. -/
def bestScan {α : Type} [DecidableEq α] (p tol : ℚ) :
    List (α × Feature) → Option (α × ℚ) → Option (α × ℚ)
  | [], acc => acc
  | (fid, f) :: t, acc =>
    if f.is_blank = false ∧ beatsMin acc |f.mz - p| = true ∧ |f.mz - p| < tol then
      bestScan p tol t (some (fid, |f.mz - p|))
    else
      bestScan p tol t acc

/-- The feature the MS2 spectrum is attached to (lines 217-227): linear
scan over the feature table for the non-blank feature closest to the
precursor m/z, accepted only within the fixed 0.1 tolerance; an earlier
feature wins exact ties because only a strictly smaller difference
replaces the running best. -/
def find_best_feature {α : Type} [DecidableEq α]
    (features : List (α × Feature)) (precursor : ℚ) : Option α :=
  (bestScan precursor (1 / 10) features none).map Prod.fst

/-- Base peak selection `max(peaks, key=intensity)` (line 141): the first
peak of maximal intensity wins, as Python `max` keeps the current value
on ties. -/
def basePeak (p0 : ℚ × ℚ) (rest : List (ℚ × ℚ)) : ℚ × ℚ :=
  rest.foldl (fun acc q => if q.2 > acc.2 then q else acc) p0

/-- Running state of `extract_features_from_mzml`: the feature table, the
fragment table, and the two identity counters. -/
structure ExtractState where
  features : List (FeatureId × Feature)
  ms2_spectra : List (FeatureId × Spectrum)
  feature_counter : ℕ
  ms2_count : ℕ

/-- Processing of one spectrum by `extract_features_from_mzml`
(lines 128-244). MS1: the base peak becomes a new feature when its
intensity is positive. MS2: skip without precursor or surviving peaks
(threshold `max(0.01*max, max/50)`, kept when intensity ≥ threshold);
attach the filtered peaks to the closest non-blank feature within 0.1
m/z, overwriting any earlier spectrum of that feature; with no match,
synthesize a new feature unless the run is blank. -/
def processSpectrum (run : String) (is_blank : Bool) (st : ExtractState)
    (spec : SpecRec) : ExtractState :=
  if spec.ms_level = 1 then
    match spec.peaks with
    | [] => st
    | p0 :: rest =>
      let base := basePeak p0 rest
      if 0 < base.2 then
        { st with
          features := aupdate st.features (FeatureId.ms1 st.feature_counter)
            { mz := base.1, rt := rtStored spec.rt, intensity := base.2,
              file := run, is_blank := is_blank },
          feature_counter := st.feature_counter + 1 }
      else st
  else if spec.ms_level = 2 then
    match spec.precursor_mz with
    | none => st
    | some pre =>
      match spec.peaks with
      | [] => st
      | p0 :: rest =>
        let maxI := rest.foldl (fun m q => max m q.2) p0.2
        let threshold := max ((1 / 100) * maxI) (maxI / 50)
        let filtered := (p0 :: rest).filter (fun q => decide (threshold ≤ q.2))
        if filtered = [] then st
        else
          match find_best_feature st.features pre with
          | some fid =>
            { st with
              ms2_spectra := aupdate st.ms2_spectra fid filtered,
              ms2_count := st.ms2_count + 1 }
          | none =>
            if is_blank then st
            else
              { st with
                features := aupdate st.features (FeatureId.ms2syn st.ms2_count)
                  { mz := pre, rt := rtStored spec.rt,
                    intensity := (filtered.map Prod.snd).sum,
                    file := run, is_blank := is_blank },
                ms2_spectra := aupdate st.ms2_spectra (FeatureId.ms2syn st.ms2_count)
                  filtered,
                ms2_count := st.ms2_count + 1 }
  else st

/-- Feature extraction over one run (`extract_features_from_mzml`,
lines 109-253): a fold of `processSpectrum` over the scan stream,
returning the feature table and the fragment table. -/
def extract_features_from_mzml (run : String) (specs : List SpecRec)
    (is_blank : Bool) : List (FeatureId × Feature) × List (FeatureId × Spectrum) :=
  let st := specs.foldl (processSpectrum run is_blank) ⟨[], [], 0, 0⟩
  (st.features, st.ms2_spectra)

/-- Inner scan of `blank_subtraction` (lines 272-285): walk the blank
table and stop at the first blank feature within 0.01 m/z and 0.1 min
(the RT check passes outright when either side's RT is zero) with
positive intensity and sample/blank intensity ratio under the
threshold. -/
def scanBlank (mz rt intensity thr : ℚ) {α : Type} :
    List (α × Feature) → Bool
  | [] => false
  | (_, bf) :: t =>
    let mz_diff := |bf.mz - mz|
    let rt_diff := if rt ≠ 0 ∧ bf.rt ≠ 0 then |bf.rt - rt| else 0
    if mz_diff < 1 / 100 ∧ rt_diff < 1 / 10 then
      if 0 < bf.intensity then
        if intensity / bf.intensity < thr then true
        else scanBlank mz rt intensity thr t
      else scanBlank mz rt intensity thr t
    else scanBlank mz rt intensity thr t

/-- Blank subtraction (`blank_subtraction`, lines 256-291): keep exactly
the sample features for which the scan over the blank table finds no
qualifying blank feature, in their original order. -/
def blank_subtraction {α : Type} (sample blank : List (α × Feature))
    (thr : ℚ) : List (α × Feature) :=
  sample.filter (fun q => !(scanBlank q.2.mz q.2.rt q.2.intensity thr blank))

theorem scanBlank_eq_true_iff {α : Type} (mz rt intensity thr : ℚ)
    (l : List (α × Feature)) :
    scanBlank mz rt intensity thr l = true ↔
      ∃ b ∈ l, |b.2.mz - mz| < 1 / 100 ∧
        (if rt ≠ 0 ∧ b.2.rt ≠ 0 then |b.2.rt - rt| else 0) < 1 / 10 ∧
        0 < b.2.intensity ∧ intensity / b.2.intensity < thr := by
  induction l with
  | nil => simp [scanBlank]
  | cons q t ih =>
    obtain ⟨a, bf⟩ := q
    simp only [scanBlank]
    by_cases hmzrt : |bf.mz - mz| < 1 / 100 ∧
        (if rt ≠ 0 ∧ bf.rt ≠ 0 then |bf.rt - rt| else 0) < 1 / 10
    · rw [if_pos hmzrt]
      by_cases hint : 0 < bf.intensity
      · rw [if_pos hint]
        by_cases hr : intensity / bf.intensity < thr
        · rw [if_pos hr]
          simp only [true_iff]
          exact ⟨(a, bf), List.mem_cons_self _ _, hmzrt.1, hmzrt.2, hint, hr⟩
        · rw [if_neg hr, ih]
          constructor
          · rintro ⟨b, hb, hcond⟩
            exact ⟨b, List.mem_cons_of_mem _ hb, hcond⟩
          · rintro ⟨b, hb, hcond⟩
            rcases List.mem_cons.mp hb with rfl | hb'
            · exact absurd hcond.2.2.2 hr
            · exact ⟨b, hb', hcond⟩
      · rw [if_neg hint, ih]
        constructor
        · rintro ⟨b, hb, hcond⟩
          exact ⟨b, List.mem_cons_of_mem _ hb, hcond⟩
        · rintro ⟨b, hb, hcond⟩
          rcases List.mem_cons.mp hb with rfl | hb'
          · exact absurd hcond.2.2.1 hint
          · exact ⟨b, hb', hcond⟩
    · rw [if_neg hmzrt, ih]
      constructor
      · rintro ⟨b, hb, hcond⟩
        exact ⟨b, List.mem_cons_of_mem _ hb, hcond⟩
      · rintro ⟨b, hb, hcond⟩
        rcases List.mem_cons.mp hb with rfl | hb'
        · exact absurd ⟨hcond.1, hcond.2.1⟩ hmzrt
        · exact ⟨b, hb', hcond⟩

/-- C5: blank subtraction keeps the sample features in their original
order, and a sample feature survives exactly when no blank feature lies
within 0.01 m/z and 0.1 min of it (the retention-time check passing
outright when either retention time is zero) with positive intensity and
sample/blank intensity ratio below the threshold. -/
theorem C5_blank_subtraction_iff {α : Type} (sample blank : List (α × Feature))
    (thr : ℚ) :
    (blank_subtraction sample blank thr).Sublist sample ∧
    ∀ q, q ∈ blank_subtraction sample blank thr ↔
      q ∈ sample ∧ ¬ ∃ b ∈ blank, |b.2.mz - q.2.mz| < 1 / 100 ∧
        (if q.2.rt ≠ 0 ∧ b.2.rt ≠ 0 then |b.2.rt - q.2.rt| else 0) < 1 / 10 ∧
        0 < b.2.intensity ∧ q.2.intensity / b.2.intensity < thr := by
  refine ⟨List.filter_sublist _, fun q => ?_⟩
  rw [blank_subtraction, List.mem_filter]
  simp only [Bool.not_eq_true', Bool.eq_false_iff, Ne, scanBlank_eq_true_iff]

theorem mem_aupdate {α β : Type} [DecidableEq α] (l : List (α × β)) (k : α)
    (v : β) (q : α × β) (hq : q ∈ aupdate l k v) : q ∈ l ∨ q = (k, v) := by
  induction l with
  | nil => simpa [aupdate] using hq
  | cons p t ih =>
    by_cases hk : p.1 = k
    · obtain ⟨pk, pv⟩ := p
      simp only [aupdate, if_pos hk] at hq
      rcases List.mem_cons.mp hq with rfl | hq'
      · subst hk
        exact Or.inr rfl
      · exact Or.inl (List.mem_cons_of_mem _ hq')
    · obtain ⟨pk, pv⟩ := p
      simp only [aupdate, if_neg hk] at hq
      rcases List.mem_cons.mp hq with rfl | hq'
      · exact Or.inl (List.mem_cons_self _ _)
      · rcases ih hq' with h | h
        · exact Or.inl (List.mem_cons_of_mem _ h)
        · exact Or.inr h

theorem bestScan_all_blank {α : Type} [DecidableEq α] (p tol : ℚ)
    (l : List (α × Feature)) (acc : Option (α × ℚ))
    (h : ∀ q ∈ l, q.2.is_blank = true) : bestScan p tol l acc = acc := by
  induction l generalizing acc with
  | nil => rfl
  | cons q t ih =>
    obtain ⟨a, f⟩ := q
    have hf : f.is_blank = true := h _ (List.mem_cons_self _ _)
    simp only [bestScan]
    rw [if_neg]
    · exact ih _ (fun r hr => h r (List.mem_cons_of_mem _ hr))
    · rintro ⟨hb, -⟩
      rw [hf] at hb
      exact Bool.noConfusion hb

theorem processSpectrum_blank_invariant (run : String) (st : ExtractState)
    (spec : SpecRec) (hf : ∀ q ∈ st.features, q.2.is_blank = true)
    (hm : st.ms2_spectra = []) :
    (∀ q ∈ (processSpectrum run true st spec).features, q.2.is_blank = true) ∧
    (processSpectrum run true st spec).ms2_spectra = [] := by
  unfold processSpectrum
  split
  · split
    · exact ⟨hf, hm⟩
    · dsimp only
      split
      · refine ⟨fun q hq => ?_, hm⟩
        rcases mem_aupdate _ _ _ _ hq with h | h
        · exact hf _ h
        · rw [h]
      · exact ⟨hf, hm⟩
  · split
    · split
      · exact ⟨hf, hm⟩
      · split
        · exact ⟨hf, hm⟩
        · dsimp only
          split
          · exact ⟨hf, hm⟩
          · split
            next fid heq =>
              rw [find_best_feature, bestScan_all_blank _ _ _ _ hf] at heq
              exact absurd heq (by simp)
            next heq =>
              rw [if_pos rfl]
              exact ⟨hf, hm⟩
    · exact ⟨hf, hm⟩

theorem beatsMin_some_iff {α : Type} (z : α × ℚ) (d : ℚ) :
    beatsMin (some z) d = true ↔ d < z.2 := by
  simp [beatsMin]

/-- Full characterization of the precursor-matching scan: with running
state `acc`, the scan returns `some (fid, d)` exactly when either the
accumulator survives untouched (no qualifying entry strictly beats it) or
`(fid, _)` is the first entry achieving the overall minimum difference
among non-blank entries within tolerance, strictly beating the
accumulator and every earlier qualifying entry, and at least tying every
later one. -/
theorem bestScan_eq_some_iff {α : Type} [DecidableEq α] (p tol : ℚ)
    (l : List (α × Feature)) :
    ∀ (acc : Option (α × ℚ)) (fid : α) (d : ℚ),
      bestScan p tol l acc = some (fid, d) ↔
        ((acc = some (fid, d) ∧
            ∀ q ∈ l, q.2.is_blank = false → |q.2.mz - p| < tol →
              d ≤ |q.2.mz - p|) ∨
          ∃ f l1 l2, l = l1 ++ (fid, f) :: l2 ∧ f.is_blank = false ∧
            |f.mz - p| < tol ∧ d = |f.mz - p| ∧
            (∀ x dd, acc = some (x, dd) → d < dd) ∧
            (∀ q ∈ l1, q.2.is_blank = false → |q.2.mz - p| < tol →
              d < |q.2.mz - p|) ∧
            (∀ q ∈ l2, q.2.is_blank = false → |q.2.mz - p| < tol →
              d ≤ |q.2.mz - p|)) := by
  induction l with
  | nil =>
    intro acc fid d
    simp only [bestScan, List.not_mem_nil, false_implies, implies_true, and_true]
    constructor
    · intro h
      exact Or.inl h
    · rintro (h | ⟨f, l1, l2, hsplit, -⟩)
      · exact h
      · exact absurd hsplit (by simp)
  | cons hd0 t ih =>
    obtain ⟨gid, g⟩ := hd0
    intro acc fid d
    simp only [bestScan]
    by_cases hC : g.is_blank = false ∧ beatsMin acc |g.mz - p| = true ∧
        |g.mz - p| < tol
    · rw [if_pos hC, ih (some (gid, |g.mz - p|)) fid d]
      constructor
      · rintro (⟨heq, hrest⟩ |
            ⟨f, l1, l2, hsplit, hbf, htol, hd_eq, haccc, hl1, hl2⟩)
        · have hfid : gid = fid := by
            have := congrArg (fun o => Option.map Prod.fst o) heq
            simpa using this
          have hdd : |g.mz - p| = d := by
            have := congrArg (fun o => Option.map Prod.snd o) heq
            simpa using this
          subst hfid
          refine Or.inr ⟨g, [], t, by simp, hC.1, hC.2.2, hdd.symm, ?_, by simp, ?_⟩
          · intro x dd hacc
            have hb := hC.2.1
            rw [hacc] at hb
            rw [← hdd]
            exact (beatsMin_some_iff _ _).mp hb
          · intro q hq hqb hqt
            exact hrest q hq hqb hqt
        · refine Or.inr ⟨f, (gid, g) :: l1, l2, by simp [hsplit], hbf, htol,
            hd_eq, ?_, ?_, hl2⟩
          · intro x dd hacc
            have h1 : d < |g.mz - p| := haccc gid |g.mz - p| rfl
            have hb := hC.2.1
            rw [hacc] at hb
            exact h1.trans ((beatsMin_some_iff _ _).mp hb)
          · intro q hq hqb hqt
            rcases List.mem_cons.mp hq with rfl | hq'
            · exact haccc gid |g.mz - p| rfl
            · exact hl1 q hq' hqb hqt
      · rintro (⟨hacc, hall⟩ |
            ⟨f, l1, l2, hsplit, hbf, htol, hd_eq, haccc, hl1, hl2⟩)
        · exfalso
          have hb := hC.2.1
          rw [hacc] at hb
          have h1 : |g.mz - p| < d := (beatsMin_some_iff _ _).mp hb
          have h2 : d ≤ |g.mz - p| :=
            hall (gid, g) (List.mem_cons_self _ _) hC.1 hC.2.2
          linarith
        · cases l1 with
          | nil =>
            simp only [List.nil_append, List.cons.injEq, Prod.mk.injEq] at hsplit
            obtain ⟨⟨h1, h2⟩, h3⟩ := hsplit
            refine Or.inl ⟨?_, ?_⟩
            · subst h1
              rw [hd_eq, h2]
            · intro q hq hqb hqt
              exact hl2 q (h3 ▸ hq) hqb hqt
          | cons q1 l1x =>
            simp only [List.cons_append, List.cons.injEq] at hsplit
            obtain ⟨hq1, hsplitx⟩ := hsplit
            refine Or.inr ⟨f, l1x, l2, hsplitx, hbf, htol, hd_eq, ?_, ?_, hl2⟩
            · intro x dd hacc
              have hqual : q1.2.is_blank = false ∧ |q1.2.mz - p| < tol := by
                rw [← hq1]
                exact ⟨hC.1, hC.2.2⟩
              have hlt : d < |q1.2.mz - p| :=
                hl1 q1 (List.mem_cons_self _ _) hqual.1 hqual.2
              have hdd : dd = |g.mz - p| := by
                have := congrArg (fun o => Option.map Prod.snd o) hacc
                simpa using this.symm
              rw [hdd]
              have hqg : |q1.2.mz - p| = |g.mz - p| := by rw [← hq1]
              rw [← hqg]
              exact hlt
            · intro q hq hqb hqt
              exact hl1 q (List.mem_cons_of_mem _ hq) hqb hqt
    · rw [if_neg hC, ih acc fid d]
      constructor
      · rintro (⟨hacc, hall⟩ |
            ⟨f, l1, l2, hsplit, hbf, htol, hd_eq, haccc, hl1, hl2⟩)
        · refine Or.inl ⟨hacc, ?_⟩
          intro q hq hqb hqt
          rcases List.mem_cons.mp hq with rfl | hq'
          · by_contra hlt
            have h1 : |g.mz - p| < d := lt_of_not_le hlt
            have hb : beatsMin acc |g.mz - p| = true := by
              rw [hacc]
              exact (beatsMin_some_iff _ _).mpr h1
            exact hC ⟨hqb, hb, hqt⟩
          · exact hall q hq' hqb hqt
        · refine Or.inr ⟨f, (gid, g) :: l1, l2, by simp [hsplit], hbf, htol,
            hd_eq, haccc, ?_, hl2⟩
          intro q hq hqb hqt
          rcases List.mem_cons.mp hq with rfl | hq'
          · cases acc with
            | none => exact absurd ⟨hqb, rfl, hqt⟩ hC
            | some z =>
              have hnb : ¬ |g.mz - p| < z.2 := fun hb =>
                hC ⟨hqb, (beatsMin_some_iff _ _).mpr hb, hqt⟩
              have hz := haccc z.1 z.2 (by rw [Prod.mk.eta])
              have := not_lt.mp hnb
              exact lt_of_lt_of_le hz this
          · exact hl1 q hq' hqb hqt
      · rintro (⟨hacc, hall⟩ |
            ⟨f, l1, l2, hsplit, hbf, htol, hd_eq, haccc, hl1, hl2⟩)
        · exact Or.inl ⟨hacc, fun q hq hqb hqt =>
            hall q (List.mem_cons_of_mem _ hq) hqb hqt⟩
        · cases l1 with
          | nil =>
            exfalso
            simp only [List.nil_append, List.cons.injEq, Prod.mk.injEq] at hsplit
            obtain ⟨⟨h1, h2⟩, h3⟩ := hsplit
            have hqualb : g.is_blank = false := by rw [h2]; exact hbf
            have hqualt : |g.mz - p| < tol := by rw [h2]; exact htol
            have hbm : beatsMin acc |g.mz - p| = true := by
              cases acc with
              | none => rfl
              | some z =>
                refine (beatsMin_some_iff _ _).mpr ?_
                have hz := haccc z.1 z.2 (by rw [Prod.mk.eta])
                rw [h2, ← hd_eq]
                exact hz
            exact hC ⟨hqualb, hbm, hqualt⟩
          | cons q1 l1x =>
            simp only [List.cons_append, List.cons.injEq] at hsplit
            obtain ⟨-, hsplitx⟩ := hsplit
            exact Or.inr ⟨f, l1x, l2, hsplitx, hbf, htol, hd_eq, haccc,
              fun q hq hqb hqt => hl1 q (List.mem_cons_of_mem _ hq) hqb hqt, hl2⟩

/-- C6: the MS2 spectrum attaches to the non-blank feature whose m/z is
closest to the precursor m/z, accepted only when the absolute difference
is strictly below 0.1, with an exact tie won by the earlier-encountered
feature of the linear scan: `find_best_feature` returns `some fid`
exactly when `fid` sits at a position whose difference is strictly
smaller than every earlier non-blank entry's and at most every later
non-blank entry's. -/
theorem C6_precursor_attaches_to_closest {α : Type} [DecidableEq α]
    (features : List (α × Feature)) (pre : ℚ) (fid : α) :
    find_best_feature features pre = some fid ↔
      ∃ f l1 l2, features = l1 ++ (fid, f) :: l2 ∧ f.is_blank = false ∧
        |f.mz - pre| < 1 / 10 ∧
        (∀ q ∈ l1, q.2.is_blank = false → |f.mz - pre| < |q.2.mz - pre|) ∧
        (∀ q ∈ l2, q.2.is_blank = false → |f.mz - pre| ≤ |q.2.mz - pre|) := by
  unfold find_best_feature
  constructor
  · intro h
    cases hb : bestScan pre (1 / 10) features none with
    | none => rw [hb] at h; exact absurd h (by simp)
    | some z =>
      obtain ⟨fidx, d⟩ := z
      rw [hb] at h
      have hfid : fidx = fid := by simpa using h
      subst hfid
      rcases (bestScan_eq_some_iff pre (1 / 10) features none fidx d).mp hb with
        ⟨hacc, -⟩ | ⟨f, l1, l2, hsplit, hbf, htol, hd_eq, -, hl1, hl2⟩
      · exact absurd hacc (by simp)
      · refine ⟨f, l1, l2, hsplit, hbf, htol, ?_, ?_⟩
        · intro q hq hqb
          by_cases hqt : |q.2.mz - pre| < 1 / 10
          · rw [← hd_eq] at htol ⊢
            exact hl1 q hq hqb hqt
          · exact lt_of_lt_of_le htol (not_lt.mp hqt)
        · intro q hq hqb
          by_cases hqt : |q.2.mz - pre| < 1 / 10
          · rw [← hd_eq]
            exact hl2 q hq hqb hqt
          · exact le_of_lt (lt_of_lt_of_le htol (not_lt.mp hqt))
  · rintro ⟨f, l1, l2, hsplit, hbf, htol, hl1, hl2⟩
    have hb : bestScan pre (1 / 10) features none = some (fid, |f.mz - pre|) := by
      rw [bestScan_eq_some_iff]
      refine Or.inr ⟨f, l1, l2, hsplit, hbf, htol, rfl, by simp, ?_, ?_⟩
      · intro q hq hqb hqt
        exact hl1 q hq hqb
      · intro q hq hqb hqt
        exact hl2 q hq hqb
    rw [hb]
    rfl

/-- C10: a run processed with the blank flag set contributes no fragment
spectra at all: every feature extracted in a blank run is blank, the
precursor-matching scan skips blank features, and synthesis of
MS2-derived features is disabled for blank runs, so the fragment table of
`extract_features_from_mzml` is empty. -/
theorem C10_blank_run_has_empty_fragment_table (run : String)
    (specs : List SpecRec) :
    (extract_features_from_mzml run specs true).2 = [] := by
  suffices h : ∀ st : ExtractState,
      (∀ q ∈ st.features, q.2.is_blank = true) → st.ms2_spectra = [] →
      (∀ q ∈ (specs.foldl (processSpectrum run true) st).features,
        q.2.is_blank = true) ∧
      (specs.foldl (processSpectrum run true) st).ms2_spectra = [] by
    exact (h ⟨[], [], 0, 0⟩ (by simp) rfl).2
  induction specs with
  | nil => exact fun st hf hm => ⟨hf, hm⟩
  | cons s rest ih =>
    intro st hf hm
    have h1 := processSpectrum_blank_invariant run st s hf hm
    exact ih _ h1.1 h1.2

/-- Undirected graph as networkx keeps it: the node list in insertion
order and the edge list in insertion order. -/
structure Graph (α : Type) where
  nodes : List α
  edges : List (α × α)
deriving DecidableEq

/-- The empty graph `nx.Graph()` (line 358). -/
def emptyGraph {α : Type} : Graph α := ⟨[], []⟩

/-- Node insertion as `G.add_edge`/`G.add_node` perform it: an already
present node is left in place, a new one is appended. -/
def addNodeIfAbsent {α : Type} [DecidableEq α] (l : List α) (x : α) : List α :=
  if x ∈ l then l else l ++ [x]

/-- `G.add_edge(u, v)` (line 365): inserts both endpoints (in order) if
absent, then records the edge. -/
def addEdge {α : Type} [DecidableEq α] (G : Graph α) (u v : α) : Graph α :=
  { nodes := addNodeIfAbsent (addNodeIfAbsent G.nodes u) v,
    edges := G.edges ++ [(u, v)] }

/-- `G.degree(x)`: the number of recorded edges incident to `x` (the
pair loop at lines 362-368 never adds a duplicate or self edge). -/
def degree {α : Type} [DecidableEq α] (G : Graph α) (x : α) : ℕ :=
  (G.edges.filter (fun e => decide (e.1 = x ∨ e.2 = x))).length

/-- The ordered pair enumeration `for i in range(n): for j in range(i+1, n)`
of lines 362-363. -/
def upperPairs {α : Type} : List α → List (α × α)
  | [] => []
  | x :: xs => xs.map (fun y => (x, y)) ++ upperPairs xs

/-- Fragment spectrum lookup `ms2_spectra[fid]` for a candidate. -/
def spectrumOf {α : Type} [DecidableEq α] (ms2 : List (α × Spectrum))
    (fid : α) : Spectrum :=
  (alookup ms2 fid).getD []

/-- Thresholded similarity graph over the candidate list (lines 357-368):
an edge for every ordered pair whose cosine similarity reaches the
threshold, with `simGE` standing for the real comparison
(`simGE_iff`). -/
def buildGraph {α : Type} [DecidableEq α] (fl : List α)
    (ms2 : List (α × Spectrum)) (tol thr : ℚ) : Graph α :=
  (upperPairs fl).foldl
    (fun G pr =>
      if simGE (spectrumOf ms2 pr.1) (spectrumOf ms2 pr.2) tol thr then
        addEdge G pr.1 pr.2
      else G)
    emptyGraph

/-- Step 1 of `create_network` (line 303): features that have an attached
fragment spectrum, in feature-table order. -/
def features_with_ms2_all {α : Type} [DecidableEq α]
    (features : List (α × Feature)) (ms2 : List (α × Spectrum)) :
    List (α × Feature) :=
  features.filter (fun q => (alookup ms2 q.1).isSome)

/-- Step 2 (lines 316-317): restrict to m/z at most `max_mz`. -/
def features_with_ms2 {α : Type} [DecidableEq α]
    (features : List (α × Feature)) (ms2 : List (α × Spectrum))
    (max_mz : ℚ) : List (α × Feature) :=
  (features_with_ms2_all features ms2).filter (fun q => decide (q.2.mz ≤ max_mz))

/-- Step 3 (lines 326-336): the requested node count clamped down to the
filtered pool size. -/
def clamped_num_nodes {α : Type} [DecidableEq α]
    (features : List (α × Feature)) (ms2 : List (α × Spectrum))
    (num_nodes : ℕ) (max_mz : ℚ) : ℕ :=
  if (features_with_ms2 features ms2 max_mz).length < num_nodes then
    (features_with_ms2 features ms2 max_mz).length
  else num_nodes

/-- Step 4 (line 339): stable sort of the pool by ascending m/z (Python
`sorted` is stable; insertion sort with a non-strict comparison
reproduces it exactly). -/
def sorted_features {α : Type} [DecidableEq α]
    (features : List (α × Feature)) (ms2 : List (α × Spectrum))
    (max_mz : ℚ) : List (α × Feature) :=
  List.insertionSort (fun a b => a.2.mz ≤ b.2.mz)
    (features_with_ms2 features ms2 max_mz)

/-- Step 4 continued (line 340): the candidate list, the `2N` smallest-mz
feature identities. -/
def feature_list {α : Type} [DecidableEq α]
    (features : List (α × Feature)) (ms2 : List (α × Spectrum))
    (num_nodes : ℕ) (max_mz : ℚ) : List α :=
  ((sorted_features features ms2 max_mz).take
    (clamped_num_nodes features ms2 num_nodes max_mz * 2)).map Prod.fst

/-- Step 5 (lines 342-368): the thresholded similarity graph over the
candidate list, with the fixed 0.02 alignment tolerance. -/
def similarity_graph {α : Type} [DecidableEq α]
    (features : List (α × Feature)) (ms2 : List (α × Spectrum))
    (num_nodes : ℕ) (thr max_mz : ℚ) : Graph α :=
  buildGraph (feature_list features ms2 num_nodes max_mz) ms2 (1 / 50) thr

/-- Line 374: the graph's nodes of positive degree, in node insertion
order. -/
def connected_nodes_of {α : Type} [DecidableEq α] (G : Graph α) : List α :=
  G.nodes.filter (fun x => decide (0 < degree G x))

/-- Lines 376-378: candidates absent from the graph or of degree zero,
in candidate-list (ascending m/z) order. -/
def singleton_candidates {α : Type} [DecidableEq α]
    (features : List (α × Feature)) (ms2 : List (α × Spectrum))
    (num_nodes : ℕ) (thr max_mz : ℚ) : List α :=
  (feature_list features ms2 num_nodes max_mz).filter (fun fid =>
    decide (fid ∉ (similarity_graph features ms2 num_nodes thr max_mz).nodes ∨
      degree (similarity_graph features ms2 num_nodes thr max_mz) fid = 0))

/-- Line 381: stable sort of the connected nodes by descending degree
(Python `sorted(..., key=degree, reverse=True)` is stable). -/
def connected_nodes_sorted {α : Type} [DecidableEq α]
    (features : List (α × Feature)) (ms2 : List (α × Spectrum))
    (num_nodes : ℕ) (thr max_mz : ℚ) : List α :=
  List.insertionSort
    (fun a b => degree (similarity_graph features ms2 num_nodes thr max_mz) b ≤
      degree (similarity_graph features ms2 num_nodes thr max_mz) a)
    (connected_nodes_of (similarity_graph features ms2 num_nodes thr max_mz))

/-- The exact value of the IEEE binary64 double nearest to the literal
`0.7`: `6305039478318694 / 2^53`, slightly less than `7/10`. -/
def float07 : ℚ := 6305039478318694 / 9007199254740992

/-- Round-half-to-even on an integer significand `m` with fractional
part `f ∈ [0, 1)`: round down below the halfway point, up above it, and
to the even neighbour on a tie. -/
def roundSig (m : ℤ) (f : ℚ) : ℤ :=
  if f < 1 / 2 then m
  else if 1 / 2 < f then m + 1
  else if m % 2 = 0 then m else m + 1

/-- Round a positive rational to the nearest IEEE binary64 value
(round-half-to-even at 53 significant bits): scale into `[2^52, 2^53)`
by the binary exponent `Int.log 2 x`, round the significand, and scale
back.  Exact over ℚ; overflow and subnormals do not arise for the
magnitudes this development uses. -/
def roundDouble (x : ℚ) : ℚ :=
  if x ≤ 0 then 0
  else
    ((roundSig ⌊x * 2 ^ (52 - Int.log 2 x)⌋
        (x * 2 ^ (52 - Int.log 2 x) - ⌊x * 2 ^ (52 - Int.log 2 x)⌋) : ℤ) : ℚ)
      * 2 ^ (Int.log 2 x - 52)

/-- Line 384: `int(num_nodes * 0.7)` in Python double arithmetic — the
int is converted to binary64 (a rounding, exact below `2^53`), the
product with the double `0.7` is rounded to binary64, and `int(...)`
truncates (floors, as the value is nonnegative).  This does NOT always
equal `⌊0.7·N⌋`: e.g. `int(90 * 0.7) = 62`, not `63` (see
`num_connected_90`). -/
def num_connected (n : ℕ) : ℕ :=
  (⌊roundDouble (roundDouble (n : ℚ) * float07)⌋).toNat

/-- Line 387: the top-ranked connected nodes, at most `int(N*0.7)` of
them. -/
def selected_connected {α : Type} [DecidableEq α]
    (features : List (α × Feature)) (ms2 : List (α × Spectrum))
    (num_nodes : ℕ) (thr max_mz : ℚ) : List α :=
  (connected_nodes_sorted features ms2 num_nodes thr max_mz).take
    (num_connected (clamped_num_nodes features ms2 num_nodes max_mz))

/-- Lines 385, 388: the selected singletons, at most
`N - int(N*0.7)` of them, in candidate order. -/
def selected_singletons {α : Type} [DecidableEq α]
    (features : List (α × Feature)) (ms2 : List (α × Spectrum))
    (num_nodes : ℕ) (thr max_mz : ℚ) : List α :=
  (singleton_candidates features ms2 num_nodes thr max_mz).take
    (clamped_num_nodes features ms2 num_nodes max_mz -
      num_connected (clamped_num_nodes features ms2 num_nodes max_mz))

/-- Lines 390-393: the selected singletons are added to the graph as
isolated nodes when absent. -/
def graph_plus_singletons {α : Type} [DecidableEq α]
    (features : List (α × Feature)) (ms2 : List (α × Spectrum))
    (num_nodes : ℕ) (thr max_mz : ℚ) : Graph α :=
  { similarity_graph features ms2 num_nodes thr max_mz with
    nodes := (selected_singletons features ms2 num_nodes thr max_mz).foldl
      addNodeIfAbsent
      (similarity_graph features ms2 num_nodes thr max_mz).nodes }

/-- Lines 396-399: the selected node list, with the (unreachable) trim
branch kept for fidelity. -/
def selected_nodes {α : Type} [DecidableEq α]
    (features : List (α × Feature)) (ms2 : List (α × Spectrum))
    (num_nodes : ℕ) (thr max_mz : ℚ) : List α :=
  let sc := selected_connected features ms2 num_nodes thr max_mz
  let ss := selected_singletons features ms2 num_nodes thr max_mz
  let n := clamped_num_nodes features ms2 num_nodes max_mz
  if n < (sc ++ ss).length then
    sc.take (num_connected n) ++ ss.take (n - num_connected n)
  else sc ++ ss

/-- Line 401: `G.subgraph(selected_nodes).copy()` — the induced subgraph,
nodes kept in the graph's insertion order. -/
def induced_subgraph {α : Type} [DecidableEq α] (G : Graph α)
    (sel : List α) : Graph α :=
  { nodes := G.nodes.filter (fun x => decide (x ∈ sel)),
    edges := G.edges.filter (fun e => decide (e.1 ∈ sel) && decide (e.2 ∈ sel)) }

/-- `create_network` (lines 294-412): the two empty-pool early exits
return an empty graph with an empty table; otherwise the induced
subgraph on the selected connected plus singleton nodes, returned with
the m/z-filtered feature table. -/
def create_network {α : Type} [DecidableEq α]
    (features : List (α × Feature)) (ms2 : List (α × Spectrum))
    (num_nodes : ℕ) (thr max_mz : ℚ) : Graph α × List (α × Feature) :=
  if features_with_ms2_all features ms2 = [] then (emptyGraph, [])
  else if features_with_ms2 features ms2 max_mz = [] then (emptyGraph, [])
  else
    (induced_subgraph (graph_plus_singletons features ms2 num_nodes thr max_mz)
      (selected_nodes features ms2 num_nodes thr max_mz),
     features_with_ms2 features ms2 max_mz)

/-- Closure invariant of networkx graphs: `add_edge` registers both
endpoints as nodes, so every recorded edge has both endpoints in the
node list. -/
def edgesClosed {α : Type} (G : Graph α) : Prop :=
  ∀ e ∈ G.edges, e.1 ∈ G.nodes ∧ e.2 ∈ G.nodes

theorem mem_addNodeIfAbsent_self {α : Type} [DecidableEq α] (l : List α)
    (x : α) : x ∈ addNodeIfAbsent l x := by
  unfold addNodeIfAbsent
  split_ifs with h
  · exact h
  · simp

theorem mem_addNodeIfAbsent_of_mem {α : Type} [DecidableEq α] (l : List α)
    (x y : α) (h : x ∈ l) : x ∈ addNodeIfAbsent l y := by
  unfold addNodeIfAbsent
  split_ifs
  · exact h
  · simp [h]

theorem nodup_addNodeIfAbsent {α : Type} [DecidableEq α] (l : List α)
    (x : α) (h : l.Nodup) : (addNodeIfAbsent l x).Nodup := by
  unfold addNodeIfAbsent
  split_ifs with hm
  · exact h
  · simp [List.nodup_append, h, hm]

theorem edgesClosed_emptyGraph {α : Type} : edgesClosed (emptyGraph : Graph α) := by
  intro e he
  simp [emptyGraph] at he

theorem edgesClosed_addEdge {α : Type} [DecidableEq α] (G : Graph α)
    (u v : α) (h : edgesClosed G) : edgesClosed (addEdge G u v) := by
  intro e he
  simp only [addEdge, List.mem_append, List.mem_singleton] at he
  rcases he with he | rfl
  · obtain ⟨h1, h2⟩ := h e he
    exact ⟨mem_addNodeIfAbsent_of_mem _ _ _ (mem_addNodeIfAbsent_of_mem _ _ _ h1),
      mem_addNodeIfAbsent_of_mem _ _ _ (mem_addNodeIfAbsent_of_mem _ _ _ h2)⟩
  · exact ⟨mem_addNodeIfAbsent_of_mem _ _ _ (mem_addNodeIfAbsent_self _ _),
      mem_addNodeIfAbsent_self _ _⟩

theorem nodup_addEdge {α : Type} [DecidableEq α] (G : Graph α) (u v : α)
    (h : G.nodes.Nodup) : (addEdge G u v).nodes.Nodup :=
  nodup_addNodeIfAbsent _ _ (nodup_addNodeIfAbsent _ _ h)

theorem mem_nodes_addEdge {α : Type} [DecidableEq α] (G : Graph α)
    (u v x : α) (h : x ∈ G.nodes) : x ∈ (addEdge G u v).nodes :=
  mem_addNodeIfAbsent_of_mem _ _ _ (mem_addNodeIfAbsent_of_mem _ _ _ h)

theorem buildGraph_invariant {α : Type} [DecidableEq α] (fl : List α)
    (ms2 : List (α × Spectrum)) (tol thr : ℚ) :
    edgesClosed (buildGraph fl ms2 tol thr) ∧
    (buildGraph fl ms2 tol thr).nodes.Nodup := by
  unfold buildGraph
  suffices h : ∀ (prs : List (α × α)) (G : Graph α), edgesClosed G → G.nodes.Nodup →
      edgesClosed (prs.foldl (fun G pr =>
        if simGE (spectrumOf ms2 pr.1) (spectrumOf ms2 pr.2) tol thr then
          addEdge G pr.1 pr.2
        else G) G) ∧
      (prs.foldl (fun G pr =>
        if simGE (spectrumOf ms2 pr.1) (spectrumOf ms2 pr.2) tol thr then
          addEdge G pr.1 pr.2
        else G) G).nodes.Nodup by
    exact h _ _ edgesClosed_emptyGraph (by simp [emptyGraph])
  intro prs
  induction prs with
  | nil => exact fun G hc hn => ⟨hc, hn⟩
  | cons pr rest ih =>
    intro G hc hn
    simp only [List.foldl_cons]
    by_cases hs : simGE (spectrumOf ms2 pr.1) (spectrumOf ms2 pr.2) tol thr = true
    · rw [if_pos hs]
      exact ih _ (edgesClosed_addEdge _ _ _ hc) (nodup_addEdge _ _ _ hn)
    · rw [if_neg hs]
      exact ih _ hc hn

theorem mem_foldl_addNodeIfAbsent_left {α : Type} [DecidableEq α]
    (l : List α) (init : List α) (x : α) (h : x ∈ init) :
    x ∈ l.foldl addNodeIfAbsent init := by
  induction l generalizing init with
  | nil => exact h
  | cons y t ih => exact ih _ (mem_addNodeIfAbsent_of_mem _ _ _ h)

theorem mem_foldl_addNodeIfAbsent_right {α : Type} [DecidableEq α]
    (l : List α) (init : List α) (x : α) (h : x ∈ l) :
    x ∈ l.foldl addNodeIfAbsent init := by
  induction l generalizing init with
  | nil => exact absurd h (List.not_mem_nil x)
  | cons y t ih =>
    simp only [List.foldl_cons]
    rcases List.mem_cons.mp h with rfl | h'
    · exact mem_foldl_addNodeIfAbsent_left t _ _ (mem_addNodeIfAbsent_self _ _)
    · exact ih _ h'

theorem nodup_foldl_addNodeIfAbsent {α : Type} [DecidableEq α]
    (l : List α) (init : List α) (h : init.Nodup) :
    (l.foldl addNodeIfAbsent init).Nodup := by
  induction l generalizing init with
  | nil => exact h
  | cons y t ih => exact ih _ (nodup_addNodeIfAbsent _ _ h)

theorem graph_plus_singletons_invariant {α : Type} [DecidableEq α]
    (features : List (α × Feature)) (ms2 : List (α × Spectrum))
    (num_nodes : ℕ) (thr max_mz : ℚ) :
    edgesClosed (graph_plus_singletons features ms2 num_nodes thr max_mz) ∧
    (graph_plus_singletons features ms2 num_nodes thr max_mz).nodes.Nodup := by
  obtain ⟨hc, hn⟩ := buildGraph_invariant
    (feature_list features ms2 num_nodes max_mz) ms2 (1 / 50) thr
  constructor
  · intro e he
    obtain ⟨h1, h2⟩ := hc e he
    exact ⟨mem_foldl_addNodeIfAbsent_left _ _ _ h1,
      mem_foldl_addNodeIfAbsent_left _ _ _ h2⟩
  · exact nodup_foldl_addNodeIfAbsent _ _ hn

theorem degree_eq_zero_of_not_mem {α : Type} [DecidableEq α] (G : Graph α)
    (hG : edgesClosed G) (x : α) (hx : x ∉ G.nodes) : degree G x = 0 := by
  unfold degree
  rw [List.length_eq_zero, List.filter_eq_nil]
  intro e he
  simp only [decide_eq_true_eq]
  rintro (h | h)
  · exact hx (h ▸ (hG e he).1)
  · exact hx (h ▸ (hG e he).2)

theorem Int_log_two_eq {x : ℚ} {e : ℤ} (hx : 0 < x)
    (h1 : (2 : ℚ) ^ e ≤ x) (h2 : x < (2 : ℚ) ^ (e + 1)) : Int.log 2 x = e := by
  have hb : (1 : ℕ) < 2 := one_lt_two
  have hle : e ≤ Int.log 2 x := (Int.zpow_le_iff_le_log hb hx).mp (by push_cast; exact h1)
  have hlt : Int.log 2 x < e + 1 := (Int.lt_zpow_iff_log_lt hb hx).mp (by push_cast; exact h2)
  omega

theorem roundSig_le (m : ℤ) (f : ℚ) : roundSig m f ≤ m + 1 := by
  unfold roundSig
  split_ifs <;> omega

theorem roundSig_nonneg (m : ℤ) (f : ℚ) (hm : 0 ≤ m) : 0 ≤ roundSig m f := by
  unfold roundSig
  split_ifs <;> omega

theorem roundDouble_nonneg (x : ℚ) : 0 ≤ roundDouble x := by
  unfold roundDouble
  split_ifs with h
  · exact le_refl 0
  · have hx : 0 < x := not_le.mp h
    have hs : (0 : ℚ) ≤ x * 2 ^ (52 - Int.log 2 x) :=
      (mul_pos hx (zpow_pos (by norm_num) _)).le
    exact mul_nonneg (by exact_mod_cast roundSig_nonneg _ _ (Int.floor_nonneg.mpr hs))
      (zpow_pos (by norm_num : (0:ℚ) < 2) _).le

/-- Rounding to binary64 overshoots by less than one unit in the last
place: `roundDouble x ≤ x·(1 + 2^-52)` for positive `x`. -/
theorem roundDouble_le {x : ℚ} (hx : 0 < x) :
    roundDouble x ≤ x + x * 2 ^ (-52 : ℤ) := by
  unfold roundDouble
  rw [if_neg (not_le.mpr hx)]
  have h2 : (0 : ℚ) < 2 := by norm_num
  have hm : (⌊x * 2 ^ (52 - Int.log 2 x)⌋ : ℚ) ≤ x * 2 ^ (52 - Int.log 2 x) :=
    Int.floor_le _
  have hr : ((roundSig ⌊x * 2 ^ (52 - Int.log 2 x)⌋
      (x * 2 ^ (52 - Int.log 2 x) - ⌊x * 2 ^ (52 - Int.log 2 x)⌋) : ℤ) : ℚ) ≤
      x * 2 ^ (52 - Int.log 2 x) + 1 := by
    have h1 := roundSig_le ⌊x * 2 ^ (52 - Int.log 2 x)⌋
      (x * 2 ^ (52 - Int.log 2 x) - ⌊x * 2 ^ (52 - Int.log 2 x)⌋)
    have h1' : ((roundSig ⌊x * 2 ^ (52 - Int.log 2 x)⌋
        (x * 2 ^ (52 - Int.log 2 x) - ⌊x * 2 ^ (52 - Int.log 2 x)⌋) : ℤ) : ℚ) ≤
        (⌊x * 2 ^ (52 - Int.log 2 x)⌋ : ℚ) + 1 := by exact_mod_cast h1
    linarith
  have hpow : (0 : ℚ) < 2 ^ (Int.log 2 x - 52) := zpow_pos h2 _
  have hmain : ((roundSig ⌊x * 2 ^ (52 - Int.log 2 x)⌋
      (x * 2 ^ (52 - Int.log 2 x) - ⌊x * 2 ^ (52 - Int.log 2 x)⌋) : ℤ) : ℚ) *
      2 ^ (Int.log 2 x - 52) ≤
      (x * 2 ^ (52 - Int.log 2 x) + 1) * 2 ^ (Int.log 2 x - 52) :=
    mul_le_mul_of_nonneg_right hr hpow.le
  have hcollapse : (x * 2 ^ (52 - Int.log 2 x) + 1) * 2 ^ (Int.log 2 x - 52) =
      x + 2 ^ (Int.log 2 x - 52) := by
    rw [add_mul, one_mul, mul_assoc, ← zpow_add₀ (two_ne_zero)]
    norm_num
  have hlogle : (2 : ℚ) ^ (Int.log 2 x) ≤ x := by
    have h := Int.zpow_log_le_self (one_lt_two : (1:ℕ) < 2) hx
    push_cast at h
    exact h
  have hbound : (2 : ℚ) ^ (Int.log 2 x - 52) ≤ x * 2 ^ (-52 : ℤ) := by
    have hsplit : (2 : ℚ) ^ (Int.log 2 x - 52) =
        2 ^ (Int.log 2 x) * 2 ^ (-52 : ℤ) := by
      rw [sub_eq_add_neg, zpow_add₀ (two_ne_zero : (2:ℚ) ≠ 0)]
    rw [hsplit]
    exact mul_le_mul_of_nonneg_right hlogle (zpow_pos h2 _).le
  calc _ ≤ (x * 2 ^ (52 - Int.log 2 x) + 1) * 2 ^ (Int.log 2 x - 52) := hmain
    _ = x + 2 ^ (Int.log 2 x - 52) := hcollapse
    _ ≤ x + x * 2 ^ (-52 : ℤ) := by linarith

/-- The connected quota never exceeds the node count: two successive
relative-error factors `(1 + 2^-52)` on `0.7·n` stay below `n`. -/
theorem num_connected_le (n : ℕ) : num_connected n ≤ n := by
  unfold num_connected
  rcases Nat.eq_zero_or_pos n with h0 | hpos
  · subst h0
    norm_num [roundDouble]
  · have hn : (0 : ℚ) < (n : ℚ) := by exact_mod_cast hpos
    have h07 : (0 : ℚ) < float07 := by norm_num [float07]
    have h1 := roundDouble_le hn
    have h1' := roundDouble_nonneg ((n : ℚ))
    have hpw : (0 : ℚ) < 2 ^ (-52 : ℤ) := zpow_pos (by norm_num) _
    rcases eq_or_lt_of_le (mul_nonneg h1' h07.le) with hy0 | hypos
    · rw [← hy0]
      norm_num [roundDouble]
    · have h2 := roundDouble_le hypos
      have hkey : roundDouble (roundDouble (n : ℚ) * float07) ≤ (n : ℚ) := by
        have hc1 : roundDouble (n : ℚ) * float07 ≤
            ((n : ℚ) + (n : ℚ) * 2 ^ (-52 : ℤ)) * float07 :=
          mul_le_mul_of_nonneg_right h1 h07.le
        have hfact : ((n : ℚ) + (n : ℚ) * 2 ^ (-52 : ℤ)) * float07 *
            (1 + 2 ^ (-52 : ℤ)) ≤ (n : ℚ) := by
          have hq : float07 * (1 + 2 ^ (-52 : ℤ)) * (1 + 2 ^ (-52 : ℤ)) ≤ 1 := by
            norm_num [float07]
          nlinarith [hn.le, hpw.le]
        nlinarith [hpw.le, mul_nonneg h1' h07.le]
      have hfl : ⌊roundDouble (roundDouble (n : ℚ) * float07)⌋ ≤ (n : ℤ) := by
        have := Int.floor_le_floor hkey
        simpa using this
      omega

theorem roundDouble_3 : roundDouble (3 : ℚ) = 3 := by
  have he : Int.log 2 (3 : ℚ) = 1 :=
    Int_log_two_eq (by norm_num) (by norm_num) (by norm_num)
  unfold roundDouble
  rw [if_neg (by norm_num), he]
  norm_num [roundSig]

theorem roundDouble_4 : roundDouble (4 : ℚ) = 4 := by
  have he : Int.log 2 (4 : ℚ) = 2 :=
    Int_log_two_eq (by norm_num) (by norm_num) (by norm_num)
  unfold roundDouble
  rw [if_neg (by norm_num), he]
  norm_num [roundSig]

theorem roundDouble_90 : roundDouble (90 : ℚ) = 90 := by
  have he : Int.log 2 (90 : ℚ) = 6 :=
    Int_log_two_eq (by norm_num) (by norm_num) (by norm_num)
  unfold roundDouble
  rw [if_neg (by norm_num), he]
  norm_num [roundSig]

/-- `int(3 * 0.7) = 2`: the product `3·float07` scales to significand
`9457559217478040` + fraction `1/2`, an exact tie resolved to the even
(lower) neighbour, and the floor of the result is 2 = ⌊0.7·3⌋. -/
theorem num_connected_3 : num_connected 3 = 2 := by
  have he : Int.log 2 ((3 : ℚ) * float07) = 1 :=
    Int_log_two_eq (by norm_num [float07]) (by norm_num [float07])
      (by norm_num [float07])
  have h2 : roundDouble ((3 : ℚ) * float07) =
      (4728779608739020 : ℚ) * 2 ^ (-51 : ℤ) := by
    unfold roundDouble
    rw [if_neg (by norm_num [float07]), he]
    norm_num [roundSig, float07]
  unfold num_connected
  rw [Nat.cast_ofNat, roundDouble_3, h2]
  norm_num
  rfl

/-- `int(4 * 0.7) = 2`: the product `4·float07` is exactly
representable, and its floor is 2 = ⌊0.7·4⌋. -/
theorem num_connected_4 : num_connected 4 = 2 := by
  have he : Int.log 2 ((4 : ℚ) * float07) = 1 :=
    Int_log_two_eq (by norm_num [float07]) (by norm_num [float07])
      (by norm_num [float07])
  have h2 : roundDouble ((4 : ℚ) * float07) =
      (6305039478318694 : ℚ) * 2 ^ (-51 : ℤ) := by
    unfold roundDouble
    rw [if_neg (by norm_num [float07]), he]
    norm_num [roundSig, float07]
  unfold num_connected
  rw [Nat.cast_ofNat, roundDouble_4, h2]
  norm_num
  rfl

/-- `int(90 * 0.7) = 62`, not `⌊0.7·90⌋ = 63`: the product `90·float07`
rounds down (fraction `7/16 < 1/2`) to `8866461766385663·2^-47`, which
is strictly below 63. -/
theorem num_connected_90 : num_connected 90 = 62 := by
  have he : Int.log 2 ((90 : ℚ) * float07) = 5 :=
    Int_log_two_eq (by norm_num [float07]) (by norm_num [float07])
      (by norm_num [float07])
  have h2 : roundDouble ((90 : ℚ) * float07) =
      (8866461766385663 : ℚ) * 2 ^ (-47 : ℤ) := by
    unfold roundDouble
    rw [if_neg (by norm_num [float07]), he]
    norm_num [roundSig, float07]
  unfold num_connected
  rw [Nat.cast_ofNat, roundDouble_90, h2]
  norm_num
  rfl

theorem selected_nodes_length_le {α : Type} [DecidableEq α]
    (features : List (α × Feature)) (ms2 : List (α × Spectrum))
    (num_nodes : ℕ) (thr max_mz : ℚ) :
    (selected_nodes features ms2 num_nodes thr max_mz).length ≤
      clamped_num_nodes features ms2 num_nodes max_mz := by
  have hNC := num_connected_le (clamped_num_nodes features ms2 num_nodes max_mz)
  simp only [selected_nodes, selected_connected, selected_singletons]
  split_ifs <;>
    simp only [List.length_append, List.length_take] <;> omega

/-- C4: for every input feature table, fragment table and parameter set,
the returned network's node count is at most the clamped node count, and
every returned edge has both endpoints in the returned node list. -/
theorem C4_node_bound_and_edge_closure {α : Type} [DecidableEq α]
    (features : List (α × Feature)) (ms2 : List (α × Spectrum))
    (num_nodes : ℕ) (thr max_mz : ℚ) :
    (create_network features ms2 num_nodes thr max_mz).1.nodes.length ≤
      clamped_num_nodes features ms2 num_nodes max_mz ∧
    ∀ e ∈ (create_network features ms2 num_nodes thr max_mz).1.edges,
      e.1 ∈ (create_network features ms2 num_nodes thr max_mz).1.nodes ∧
      e.2 ∈ (create_network features ms2 num_nodes thr max_mz).1.nodes := by
  unfold create_network
  split_ifs with h1 h2
  · exact ⟨by simp [emptyGraph], by simp [emptyGraph]⟩
  · exact ⟨by simp [emptyGraph], by simp [emptyGraph]⟩
  · obtain ⟨hc, hn⟩ := graph_plus_singletons_invariant features ms2 num_nodes thr max_mz
    constructor
    · have hsub : ((graph_plus_singletons features ms2 num_nodes thr max_mz).nodes.filter
          (fun x => decide (x ∈ selected_nodes features ms2 num_nodes thr max_mz))).Nodup :=
        hn.filter _
      have hsubset : (graph_plus_singletons features ms2 num_nodes thr max_mz).nodes.filter
          (fun x => decide (x ∈ selected_nodes features ms2 num_nodes thr max_mz)) ⊆
          selected_nodes features ms2 num_nodes thr max_mz := by
        intro x hx
        exact of_decide_eq_true (List.mem_filter.mp hx).2
      have hlen := (List.subperm_of_subset hsub hsubset).length_le
      exact le_trans hlen (selected_nodes_length_le features ms2 num_nodes thr max_mz)
    · intro e he
      simp only [induced_subgraph, List.mem_filter, Bool.and_eq_true,
        decide_eq_true_eq] at he ⊢
      obtain ⟨hee, he1, he2⟩ := he
      obtain ⟨hm1, hm2⟩ := hc e hee
      exact ⟨⟨hm1, he1⟩, ⟨hm2, he2⟩⟩

theorem filter_keyClass_orderedInsert {α : Type} (k : α → ℕ) (d : ℕ) (a : α)
    (l : List α) :
    (List.orderedInsert (fun x y => k y ≤ k x) a l).filter
        (fun x => decide (k x = d)) =
      if k a = d then a :: l.filter (fun x => decide (k x = d))
      else l.filter (fun x => decide (k x = d)) := by
  induction l with
  | nil =>
    simp only [List.orderedInsert_nil]
    by_cases ha : k a = d <;> simp [List.filter_cons, ha]
  | cons b t ih =>
    simp only [List.orderedInsert]
    by_cases hr : k b ≤ k a
    · rw [if_pos hr]
      by_cases ha : k a = d <;> simp [List.filter_cons, ha]
    · rw [if_neg hr]
      have hba : k a < k b := lt_of_not_le hr
      by_cases ha : k a = d
      · have hbd : ¬(k b = d) := by omega
        simp [List.filter_cons, hbd, ih, ha]
      · by_cases hb : k b = d <;> simp [List.filter_cons, hb, ih, ha]

theorem filter_keyClass_insertionSort {α : Type} (k : α → ℕ) (d : ℕ)
    (l : List α) :
    (List.insertionSort (fun x y => k y ≤ k x) l).filter
        (fun x => decide (k x = d)) =
      l.filter (fun x => decide (k x = d)) := by
  induction l with
  | nil => rfl
  | cons a t ih =>
    simp only [List.insertionSort]
    rw [filter_keyClass_orderedInsert]
    by_cases ha : k a = d <;> simp [List.filter_cons, ha, ih]

/-- C3 (amended): the ranking of connected members is a permutation of
the graph's positive-degree nodes, sorted by descending degree; members
of equal degree keep their relative order from the graph's node list —
the order in which the pair enumeration (i before j) first touched them
with an edge — which is in general not the step-4 ascending-m/z order
(see the counterexample). -/
theorem C3_ranking_stable_in_insertion_order {α : Type} [DecidableEq α]
    (features : List (α × Feature)) (ms2 : List (α × Spectrum))
    (num_nodes : ℕ) (thr max_mz : ℚ) (d : ℕ) :
    (connected_nodes_sorted features ms2 num_nodes thr max_mz).Perm
      (connected_nodes_of (similarity_graph features ms2 num_nodes thr max_mz)) ∧
    List.Pairwise
      (fun a b => degree (similarity_graph features ms2 num_nodes thr max_mz) b ≤
        degree (similarity_graph features ms2 num_nodes thr max_mz) a)
      (connected_nodes_sorted features ms2 num_nodes thr max_mz) ∧
    (connected_nodes_sorted features ms2 num_nodes thr max_mz).filter
        (fun x => decide
          (degree (similarity_graph features ms2 num_nodes thr max_mz) x = d)) =
      (connected_nodes_of (similarity_graph features ms2 num_nodes thr max_mz)).filter
        (fun x => decide
          (degree (similarity_graph features ms2 num_nodes thr max_mz) x = d)) := by
  refine ⟨List.perm_insertionSort _ _, ?_,
    filter_keyClass_insertionSort
      (degree (similarity_graph features ms2 num_nodes thr max_mz)) d _⟩
  haveI : IsTotal α (fun a b =>
      degree (similarity_graph features ms2 num_nodes thr max_mz) b ≤
        degree (similarity_graph features ms2 num_nodes thr max_mz) a) :=
    ⟨fun a b => le_total _ _⟩
  haveI : IsTrans α (fun a b =>
      degree (similarity_graph features ms2 num_nodes thr max_mz) b ≤
        degree (similarity_graph features ms2 num_nodes thr max_mz) a) :=
    ⟨fun _ _ _ h1 h2 => le_trans h2 h1⟩
  exact List.sorted_insertionSort _ _

/-- Four features in ascending m/z order whose spectra pair the outer
features (0 and 3) and the inner features (1 and 2): the identical
spectra give cosine 1, the disjoint ones cosine 0. -/
def pairedFeatures : List (ℕ × Feature) :=
  [(0, ⟨100, 0, 1, "", false⟩), (1, ⟨110, 0, 1, "", false⟩),
   (2, ⟨120, 0, 1, "", false⟩), (3, ⟨130, 0, 1, "", false⟩)]

/-- Fragment table for `pairedFeatures`: features 0 and 3 share one
spectrum, features 1 and 2 share another, the two spectra are disjoint
in m/z. -/
def pairedSpectra : List (ℕ × Spectrum) :=
  [(0, [(10, 1)]), (1, [(20, 1)]), (2, [(20, 1)]), (3, [(10, 1)])]

/-- C3 counterexample: with edges (0,3) and (1,2) all four connected
nodes have degree 1, and feature 1 has smaller m/z than feature 3, yet
the ranking is [0, 3, 1, 2] — node 3 (m/z 130) is ranked, and selected,
before node 1 (m/z 110), because equal-degree ties follow the graph's
node-insertion order (0, 3, 1, 2), not the ascending-m/z order. -/
theorem C3_counterexample :
    degree (similarity_graph pairedFeatures pairedSpectra 50 (7 / 10) 500) 1 = 1 ∧
    degree (similarity_graph pairedFeatures pairedSpectra 50 (7 / 10) 500) 3 = 1 ∧
    (alookup pairedFeatures 1).map Feature.mz = some 110 ∧
    (alookup pairedFeatures 3).map Feature.mz = some 130 ∧
    connected_nodes_sorted pairedFeatures pairedSpectra 50 (7 / 10) 500 =
      [0, 3, 1, 2] ∧
    selected_connected pairedFeatures pairedSpectra 50 (7 / 10) 500 = [0, 3] := by
  norm_num [pairedFeatures, pairedSpectra, connected_nodes_sorted,
    connected_nodes_of, similarity_graph, buildGraph, upperPairs, spectrumOf,
    alookup, feature_list, sorted_features, features_with_ms2,
    features_with_ms2_all, clamped_num_nodes, simGE, alignSpectra, alignGo,
    intensities, dotProd, normSq, addEdge, addNodeIfAbsent, emptyGraph, degree,
    selected_connected, num_connected_4]

theorem selected_connected_pos_degree {α : Type} [DecidableEq α]
    (features : List (α × Feature)) (ms2 : List (α × Spectrum))
    (num_nodes : ℕ) (thr max_mz : ℚ) :
    ∀ x ∈ selected_connected features ms2 num_nodes thr max_mz,
      0 < degree (similarity_graph features ms2 num_nodes thr max_mz) x := by
  intro x hx
  have hx1 : x ∈ connected_nodes_sorted features ms2 num_nodes thr max_mz :=
    List.take_subset _ _ hx
  have hx2 : x ∈ connected_nodes_of (similarity_graph features ms2 num_nodes thr max_mz) :=
    (List.perm_insertionSort _ _).subset hx1
  exact of_decide_eq_true (List.mem_filter.mp hx2).2

theorem selected_singletons_zero_degree {α : Type} [DecidableEq α]
    (features : List (α × Feature)) (ms2 : List (α × Spectrum))
    (num_nodes : ℕ) (thr max_mz : ℚ) :
    ∀ x ∈ selected_singletons features ms2 num_nodes thr max_mz,
      degree (similarity_graph features ms2 num_nodes thr max_mz) x = 0 := by
  intro x hx
  have hx1 : x ∈ singleton_candidates features ms2 num_nodes thr max_mz :=
    List.take_subset _ _ hx
  have hx3 := of_decide_eq_true (List.mem_filter.mp hx1).2
  rcases hx3 with h | h
  · exact degree_eq_zero_of_not_mem _
      (buildGraph_invariant (feature_list features ms2 num_nodes max_mz) ms2
        (1 / 50) thr).1 _ h
  · exact h

theorem feature_list_nodup {α : Type} [DecidableEq α]
    (features : List (α × Feature)) (ms2 : List (α × Spectrum))
    (num_nodes : ℕ) (max_mz : ℚ)
    (hk : (features.map Prod.fst).Nodup) :
    (feature_list features ms2 num_nodes max_mz).Nodup := by
  have hs : List.Sublist (features_with_ms2 features ms2 max_mz) features :=
    (List.filter_sublist _).trans (List.filter_sublist _)
  have h1 : ((features_with_ms2 features ms2 max_mz).map Prod.fst).Nodup :=
    hk.sublist (hs.map Prod.fst)
  have hp : (sorted_features features ms2 max_mz).Perm
      (features_with_ms2 features ms2 max_mz) :=
    List.perm_insertionSort _ _
  have h2 : ((sorted_features features ms2 max_mz).map Prod.fst).Nodup :=
    ((hp.map Prod.fst).nodup_iff).mpr h1
  have h3 : List.Sublist (feature_list features ms2 num_nodes max_mz)
      ((sorted_features features ms2 max_mz).map Prod.fst) :=
    (List.take_sublist _ _).map Prod.fst
  exact h2.sublist h3

theorem filter_mem_length {α : Type} [DecidableEq α] (nodes sel : List α)
    (hn : nodes.Nodup) (hs : sel.Nodup) (hsub : ∀ x ∈ sel, x ∈ nodes) :
    (nodes.filter (fun x => decide (x ∈ sel))).length = sel.length := by
  have hnd : (nodes.filter (fun x => decide (x ∈ sel))).Nodup := hn.filter _
  have h1 := (List.subperm_of_subset hnd
    (fun x hx => (of_decide_eq_true (List.mem_filter.mp hx).2 : x ∈ sel))).length_le
  have h2 := (List.subperm_of_subset hs
    (fun x hx => List.mem_filter.mpr ⟨hsub x hx, decide_eq_true hx⟩)).length_le
  omega

theorem selected_nodes_eq_append {α : Type} [DecidableEq α]
    (features : List (α × Feature)) (ms2 : List (α × Spectrum))
    (num_nodes : ℕ) (thr max_mz : ℚ) :
    selected_nodes features ms2 num_nodes thr max_mz =
      selected_connected features ms2 num_nodes thr max_mz ++
        selected_singletons features ms2 num_nodes thr max_mz := by
  have hNC := num_connected_le (clamped_num_nodes features ms2 num_nodes max_mz)
  have h1 : (selected_connected features ms2 num_nodes thr max_mz).length ≤
      num_connected (clamped_num_nodes features ms2 num_nodes max_mz) := by
    simp [selected_connected, List.length_take]
  have h2 : (selected_singletons features ms2 num_nodes thr max_mz).length ≤
      clamped_num_nodes features ms2 num_nodes max_mz -
        num_connected (clamped_num_nodes features ms2 num_nodes max_mz) := by
    simp [selected_singletons, List.length_take]
  simp only [selected_nodes]
  rw [if_neg]
  simp only [List.length_append]
  omega

theorem create_network_nodes_count {α : Type} [DecidableEq α]
    (features : List (α × Feature)) (ms2 : List (α × Spectrum))
    (num_nodes : ℕ) (thr max_mz : ℚ)
    (hk : (features.map Prod.fst).Nodup) :
    (create_network features ms2 num_nodes thr max_mz).1.nodes.length =
      (selected_connected features ms2 num_nodes thr max_mz).length +
        (selected_singletons features ms2 num_nodes thr max_mz).length := by
  have hsc_deg := selected_connected_pos_degree features ms2 num_nodes thr max_mz
  have hss_deg := selected_singletons_zero_degree features ms2 num_nodes thr max_mz
  unfold create_network
  split_ifs with h1 h2
  · have hpool : features_with_ms2 features ms2 max_mz = [] := by
      unfold features_with_ms2
      rw [h1]
      rfl
    simp [selected_connected, selected_singletons, connected_nodes_sorted,
      connected_nodes_of, similarity_graph, buildGraph, feature_list,
      sorted_features, singleton_candidates, hpool, emptyGraph, upperPairs]
  · simp [selected_connected, selected_singletons, connected_nodes_sorted,
      connected_nodes_of, similarity_graph, buildGraph, feature_list,
      sorted_features, singleton_candidates, h2, emptyGraph, upperPairs]
  · obtain ⟨hc2, hn2⟩ := graph_plus_singletons_invariant features ms2 num_nodes thr max_mz
    obtain ⟨hcG, hnG⟩ := buildGraph_invariant
      (feature_list features ms2 num_nodes max_mz) ms2 (1 / 50) thr
    have hsc_nodup : (selected_connected features ms2 num_nodes thr max_mz).Nodup := by
      have hso : (connected_nodes_sorted features ms2 num_nodes thr max_mz).Nodup :=
        ((List.perm_insertionSort _ _).nodup_iff).mpr (hnG.filter _)
      exact hso.sublist (List.take_sublist _ _)
    have hss_nodup : (selected_singletons features ms2 num_nodes thr max_mz).Nodup := by
      have hfl := feature_list_nodup features ms2 num_nodes max_mz hk
      exact (hfl.filter _).sublist (List.take_sublist _ _)
    have hdisj : (selected_connected features ms2 num_nodes thr max_mz).Disjoint
        (selected_singletons features ms2 num_nodes thr max_mz) := by
      intro x hx hx'
      have hd1 := hsc_deg x hx
      have hd2 := hss_deg x hx'
      omega
    have hsel_nodup : ((selected_connected features ms2 num_nodes thr max_mz) ++
        (selected_singletons features ms2 num_nodes thr max_mz)).Nodup :=
      List.nodup_append.mpr ⟨hsc_nodup, hss_nodup, hdisj⟩
    have hsub : ∀ x ∈ (selected_connected features ms2 num_nodes thr max_mz) ++
        (selected_singletons features ms2 num_nodes thr max_mz),
        x ∈ (graph_plus_singletons features ms2 num_nodes thr max_mz).nodes := by
      intro x hx
      rcases List.mem_append.mp hx with h | h
      · have hx1 : x ∈ connected_nodes_sorted features ms2 num_nodes thr max_mz :=
          List.take_subset _ _ h
        have hx2 : x ∈ connected_nodes_of
            (similarity_graph features ms2 num_nodes thr max_mz) :=
          (List.perm_insertionSort _ _).subset hx1
        have hx3 : x ∈ (similarity_graph features ms2 num_nodes thr max_mz).nodes :=
          (List.mem_filter.mp hx2).1
        exact mem_foldl_addNodeIfAbsent_left _ _ _ hx3
      · exact mem_foldl_addNodeIfAbsent_right _ _ _ h
    simp only [induced_subgraph, selected_nodes_eq_append]
    rw [filter_mem_length _ _ hn2 hsel_nodup hsub, List.length_append]

/-- C1 (amended): for every candidate pool and clamped node count `N` the
selector takes up to `int(N*0.7)` top-ranked connected nodes — the quota
computed in binary64 double arithmetic (`num_connected`), which equals
`⌊0.7·N⌋` at small counts but, e.g., gives 62 rather than 63 at `N = 90`
— and then up to `N - int(N*0.7)` singletons in ascending-m/z candidate
order.  The singleton allowance is the fixed complement of the connected
quota, so when fewer connected nodes exist than `int(N*0.7)` the
shortfall is not transferred to singletons and the final node count
`min(int(N*0.7), #connected) + min(N - int(N*0.7), #singleton candidates)`
can fall short of `N` (see the counterexample). -/
theorem C1_selection_quotas {α : Type} [DecidableEq α]
    (features : List (α × Feature)) (ms2 : List (α × Spectrum))
    (num_nodes : ℕ) (thr max_mz : ℚ)
    (hk : (features.map Prod.fst).Nodup) :
    (selected_connected features ms2 num_nodes thr max_mz).length =
      min (num_connected (clamped_num_nodes features ms2 num_nodes max_mz))
        (connected_nodes_of
          (similarity_graph features ms2 num_nodes thr max_mz)).length ∧
    (∀ x ∈ selected_connected features ms2 num_nodes thr max_mz,
      0 < degree (similarity_graph features ms2 num_nodes thr max_mz) x) ∧
    (selected_singletons features ms2 num_nodes thr max_mz).length =
      min (clamped_num_nodes features ms2 num_nodes max_mz -
          num_connected (clamped_num_nodes features ms2 num_nodes max_mz))
        (singleton_candidates features ms2 num_nodes thr max_mz).length ∧
    (∀ x ∈ selected_singletons features ms2 num_nodes thr max_mz,
      degree (similarity_graph features ms2 num_nodes thr max_mz) x = 0) ∧
    (selected_singletons features ms2 num_nodes thr max_mz).Sublist
      (feature_list features ms2 num_nodes max_mz) ∧
    (create_network features ms2 num_nodes thr max_mz).1.nodes.length =
      (selected_connected features ms2 num_nodes thr max_mz).length +
        (selected_singletons features ms2 num_nodes thr max_mz).length := by
  refine ⟨?_, selected_connected_pos_degree features ms2 num_nodes thr max_mz, ?_,
    selected_singletons_zero_degree features ms2 num_nodes thr max_mz, ?_,
    create_network_nodes_count features ms2 num_nodes thr max_mz hk⟩
  · rw [selected_connected, List.length_take, connected_nodes_sorted,
      (List.perm_insertionSort _ _).length_eq]
  · rw [selected_singletons, List.length_take]
  · exact (List.take_sublist _ _).trans (List.filter_sublist _)

/-- Four features in ascending m/z order with pairwise disjoint
single-peak spectra: every pairwise cosine similarity is 0, so the
thresholded graph has no edges and all four candidates are singletons. -/
def orthFeatures4 : List (ℕ × Feature) :=
  [(0, ⟨100, 0, 1, "", false⟩), (1, ⟨110, 0, 1, "", false⟩),
   (2, ⟨120, 0, 1, "", false⟩), (3, ⟨130, 0, 1, "", false⟩)]

/-- Fragment table for `orthFeatures4`: four pairwise disjoint spectra. -/
def orthSpectra4 : List (ℕ × Spectrum) :=
  [(0, [(10, 1)]), (1, [(20, 1)]), (2, [(30, 1)]), (3, [(40, 1)])]

/-- C1 counterexample: with no connected nodes, `N = 4` and four
available singleton candidates, the singleton allowance stays at
`N - int(N*0.7) = 2`, so the network has 2 nodes — the allowance does
not grow to let the selection reach `N = 4` as the claim asserts. -/
theorem C1_counterexample :
    clamped_num_nodes orthFeatures4 orthSpectra4 50 500 = 4 ∧
    connected_nodes_of (similarity_graph orthFeatures4 orthSpectra4 50
      (7 / 10) 500) = [] ∧
    (singleton_candidates orthFeatures4 orthSpectra4 50 (7 / 10) 500).length = 4 ∧
    (create_network orthFeatures4 orthSpectra4 50 (7 / 10) 500).1.nodes.length = 2 := by
  have hALL : features_with_ms2_all orthFeatures4 orthSpectra4 = orthFeatures4 := by
    norm_num [features_with_ms2_all, orthFeatures4, orthSpectra4, alookup]
  have hPOOL : features_with_ms2 orthFeatures4 orthSpectra4 500 = orthFeatures4 := by
    norm_num [features_with_ms2, features_with_ms2_all, orthFeatures4,
      orthSpectra4, alookup]
  unfold create_network
  rw [hALL, hPOOL, if_neg (by simp [orthFeatures4]), if_neg (by simp [orthFeatures4])]
  norm_num [orthFeatures4, orthSpectra4, connected_nodes_sorted,
    connected_nodes_of, similarity_graph, buildGraph, upperPairs, spectrumOf,
    alookup, feature_list, sorted_features, features_with_ms2,
    features_with_ms2_all, clamped_num_nodes, simGE, alignSpectra, alignGo,
    intensities, dotProd, normSq, addEdge, addNodeIfAbsent, emptyGraph, degree,
    selected_connected, selected_singletons, singleton_candidates, num_connected_4,
    selected_nodes, graph_plus_singletons, induced_subgraph]

/-- C1 witness: the amended quota statement applied to the concrete
four-singleton input, with the key-uniqueness hypothesis discharged
there. -/
theorem C1_selection_quotas_witness :
    (selected_connected orthFeatures4 orthSpectra4 50 (7 / 10) 500).length =
      min (num_connected (clamped_num_nodes orthFeatures4 orthSpectra4 50 500))
        (connected_nodes_of
          (similarity_graph orthFeatures4 orthSpectra4 50 (7 / 10) 500)).length ∧
    (∀ x ∈ selected_connected orthFeatures4 orthSpectra4 50 (7 / 10) 500,
      0 < degree (similarity_graph orthFeatures4 orthSpectra4 50 (7 / 10) 500) x) ∧
    (selected_singletons orthFeatures4 orthSpectra4 50 (7 / 10) 500).length =
      min (clamped_num_nodes orthFeatures4 orthSpectra4 50 500 -
          num_connected (clamped_num_nodes orthFeatures4 orthSpectra4 50 500))
        (singleton_candidates orthFeatures4 orthSpectra4 50 (7 / 10) 500).length ∧
    (∀ x ∈ selected_singletons orthFeatures4 orthSpectra4 50 (7 / 10) 500,
      degree (similarity_graph orthFeatures4 orthSpectra4 50 (7 / 10) 500) x = 0) ∧
    (selected_singletons orthFeatures4 orthSpectra4 50 (7 / 10) 500).Sublist
      (feature_list orthFeatures4 orthSpectra4 50 500) ∧
    (create_network orthFeatures4 orthSpectra4 50 (7 / 10) 500).1.nodes.length =
      (selected_connected orthFeatures4 orthSpectra4 50 (7 / 10) 500).length +
        (selected_singletons orthFeatures4 orthSpectra4 50 (7 / 10) 500).length :=
  C1_selection_quotas orthFeatures4 orthSpectra4 50 (7 / 10) 500
    (by norm_num [orthFeatures4])

theorem cosine_eq_zero_of_dotProd_zero (s1 s2 : Spectrum) (tol : ℚ)
    (h : dotProd (intensities (alignSpectra s1 s2 tol).1)
      (intensities (alignSpectra s1 s2 tol).2) = 0) :
    cosine_similarity_ms2 s1 s2 tol = 0 := by
  unfold cosine_similarity_ms2
  split_ifs with h1
  · rfl
  · dsimp only
    split_ifs with h2
    · rfl
    · rw [h]
      simp

theorem simGE_false_of_cosine_zero (s1 s2 : Spectrum)
    (h : cosine_similarity_ms2 s1 s2 (1 / 50) = 0) :
    simGE s1 s2 (1 / 50) (7 / 10) = false := by
  cases hs : simGE s1 s2 (1 / 50) (7 / 10) with
  | false => rfl
  | true =>
    exfalso
    have := (simGE_iff s1 s2 (1 / 50) (7 / 10)).mp hs
    rw [h] at this
    norm_num at this

theorem buildGraph_no_edges {α : Type} [DecidableEq α] (fl : List α)
    (ms2 : List (α × Spectrum)) (tol thr : ℚ)
    (h : ∀ pr ∈ upperPairs fl,
      simGE (spectrumOf ms2 pr.1) (spectrumOf ms2 pr.2) tol thr = false) :
    buildGraph fl ms2 tol thr = emptyGraph := by
  unfold buildGraph
  generalize hprs : upperPairs fl = prs at h
  clear hprs
  induction prs with
  | nil => rfl
  | cons pr rest ih =>
    simp only [List.foldl_cons]
    rw [h pr (List.mem_cons_self _ _)]
    simp only [Bool.false_eq_true, if_false]
    exact ih (fun q hq => h q (List.mem_cons_of_mem _ hq))

theorem upperPairs_mem {α : Type} (l : List α) (pr : α × α)
    (h : pr ∈ upperPairs l) :
    pr.1 ∈ l ∧ pr.2 ∈ l ∧ (l.Nodup → pr.1 ≠ pr.2) := by
  induction l with
  | nil => simp [upperPairs] at h
  | cons x xs ih =>
    simp only [upperPairs, List.mem_append, List.mem_map] at h
    rcases h with ⟨y, hy, rfl⟩ | h
    · refine ⟨List.mem_cons_self _ _, List.mem_cons_of_mem _ hy, fun hnd hxy => ?_⟩
      refine (List.nodup_cons.mp hnd).1 ?_
      rw [show x = y from hxy]
      exact hy
    · obtain ⟨h1, h2, h3⟩ := ih h
      exact ⟨List.mem_cons_of_mem _ h1, List.mem_cons_of_mem _ h2,
        fun hnd => h3 (List.nodup_cons.mp hnd).2⟩

/-- C2 (amended): a feature table of exactly three features under the
m/z ceiling, each with an attached fragment spectrum, whose fragment
spectra have all pairwise cosine similarities 0, run at threshold 0.7
with a requested node count of at least 3, yields a network with exactly
1 node and 0 edges: the clamped count is `N = 3`, the connected quota
`int(3*0.7) = 2` goes unused, and the singleton allowance is the fixed
complement `3 - 2 = 1`, so a single singleton (not all three) is
selected. -/
theorem C2_three_orthogonal_features {α : Type} [DecidableEq α]
    (a b c : α) (fa fb fc : Feature) (sa sb sc : Spectrum)
    (nn : ℕ) (max_mz : ℚ)
    (hab : a ≠ b) (hac : a ≠ c) (hbc : b ≠ c)
    (hma : fa.mz ≤ max_mz) (hmb : fb.mz ≤ max_mz) (hmc : fc.mz ≤ max_mz)
    (hnn : 3 ≤ nn)
    (hsab : cosine_similarity_ms2 sa sb (1 / 50) = 0)
    (hsba : cosine_similarity_ms2 sb sa (1 / 50) = 0)
    (hsac : cosine_similarity_ms2 sa sc (1 / 50) = 0)
    (hsca : cosine_similarity_ms2 sc sa (1 / 50) = 0)
    (hsbc : cosine_similarity_ms2 sb sc (1 / 50) = 0)
    (hscb : cosine_similarity_ms2 sc sb (1 / 50) = 0) :
    (create_network [(a, fa), (b, fb), (c, fc)] [(a, sa), (b, sb), (c, sc)]
      nn (7 / 10) max_mz).1.nodes.length = 1 ∧
    (create_network [(a, fa), (b, fb), (c, fc)] [(a, sa), (b, sb), (c, sc)]
      nn (7 / 10) max_mz).1.edges = [] := by
  have hla : alookup [(a, sa), (b, sb), (c, sc)] a = some sa := by
    simp [alookup]
  have hlb : alookup [(a, sa), (b, sb), (c, sc)] b = some sb := by
    simp [alookup, hab]
  have hlc : alookup [(a, sa), (b, sb), (c, sc)] c = some sc := by
    simp [alookup, hac, hbc]
  have hall : features_with_ms2_all [(a, fa), (b, fb), (c, fc)]
      [(a, sa), (b, sb), (c, sc)] = [(a, fa), (b, fb), (c, fc)] := by
    simp [features_with_ms2_all, hla, hlb, hlc]
  have hpool : features_with_ms2 [(a, fa), (b, fb), (c, fc)]
      [(a, sa), (b, sb), (c, sc)] max_mz = [(a, fa), (b, fb), (c, fc)] := by
    simp [features_with_ms2, hall, hma, hmb, hmc]
  have hN : clamped_num_nodes [(a, fa), (b, fb), (c, fc)]
      [(a, sa), (b, sb), (c, sc)] nn max_mz = 3 := by
    rw [clamped_num_nodes, hpool]
    simp only [List.length_cons, List.length_nil]
    split_ifs with h
    · rfl
    · omega
  have hsortp : (sorted_features [(a, fa), (b, fb), (c, fc)]
      [(a, sa), (b, sb), (c, sc)] max_mz).Perm [(a, fa), (b, fb), (c, fc)] := by
    rw [sorted_features, hpool]
    exact List.perm_insertionSort _ _
  have hsortlen : (sorted_features [(a, fa), (b, fb), (c, fc)]
      [(a, sa), (b, sb), (c, sc)] max_mz).length = 3 := by
    rw [hsortp.length_eq]
    rfl
  have hfl_eq : feature_list [(a, fa), (b, fb), (c, fc)]
      [(a, sa), (b, sb), (c, sc)] nn max_mz =
      (sorted_features [(a, fa), (b, fb), (c, fc)]
        [(a, sa), (b, sb), (c, sc)] max_mz).map Prod.fst := by
    rw [feature_list, hN, List.take_of_length_le (by rw [hsortlen]; norm_num)]
  have hfl_perm : (feature_list [(a, fa), (b, fb), (c, fc)]
      [(a, sa), (b, sb), (c, sc)] nn max_mz).Perm [a, b, c] := by
    rw [hfl_eq]
    have := hsortp.map Prod.fst
    simpa using this
  have hfl_len : (feature_list [(a, fa), (b, fb), (c, fc)]
      [(a, sa), (b, sb), (c, sc)] nn max_mz).length = 3 := by
    rw [hfl_perm.length_eq]
    rfl
  have habc_nodup : ([a, b, c] : List α).Nodup := by
    simp [hab, hac, hbc]
  have hfl_nodup : (feature_list [(a, fa), (b, fb), (c, fc)]
      [(a, sa), (b, sb), (c, sc)] nn max_mz).Nodup :=
    (hfl_perm.nodup_iff).mpr habc_nodup
  have hspa : spectrumOf [(a, sa), (b, sb), (c, sc)] a = sa := by
    simp [spectrumOf, hla]
  have hspb : spectrumOf [(a, sa), (b, sb), (c, sc)] b = sb := by
    simp [spectrumOf, hlb]
  have hspc : spectrumOf [(a, sa), (b, sb), (c, sc)] c = sc := by
    simp [spectrumOf, hlc]
  have hG : similarity_graph [(a, fa), (b, fb), (c, fc)]
      [(a, sa), (b, sb), (c, sc)] nn (7 / 10) max_mz = emptyGraph := by
    rw [similarity_graph]
    apply buildGraph_no_edges
    intro pr hpr
    obtain ⟨hm1, hm2, hne⟩ := upperPairs_mem _ _ hpr
    have hx := hfl_perm.subset hm1
    have hy := hfl_perm.subset hm2
    have hnd := hne hfl_nodup
    simp only [List.mem_cons, List.not_mem_nil, or_false] at hx hy
    rcases hx with hx | hx | hx <;> rcases hy with hy | hy | hy <;>
      rw [hx, hy] at hnd ⊢
    · exact absurd rfl hnd
    · rw [hspa, hspb]
      exact simGE_false_of_cosine_zero _ _ hsab
    · rw [hspa, hspc]
      exact simGE_false_of_cosine_zero _ _ hsac
    · rw [hspb, hspa]
      exact simGE_false_of_cosine_zero _ _ hsba
    · exact absurd rfl hnd
    · rw [hspb, hspc]
      exact simGE_false_of_cosine_zero _ _ hsbc
    · rw [hspc, hspa]
      exact simGE_false_of_cosine_zero _ _ hsca
    · rw [hspc, hspb]
      exact simGE_false_of_cosine_zero _ _ hscb
    · exact absurd rfl hnd
  have hsc : selected_connected [(a, fa), (b, fb), (c, fc)]
      [(a, sa), (b, sb), (c, sc)] nn (7 / 10) max_mz = [] := by
    rw [selected_connected, connected_nodes_sorted, connected_nodes_of, hG]
    simp [emptyGraph]
  have hss_len : (selected_singletons [(a, fa), (b, fb), (c, fc)]
      [(a, sa), (b, sb), (c, sc)] nn (7 / 10) max_mz).length = 1 := by
    rw [selected_singletons, List.length_take, hN]
    have hsing : singleton_candidates [(a, fa), (b, fb), (c, fc)]
        [(a, sa), (b, sb), (c, sc)] nn (7 / 10) max_mz =
        feature_list [(a, fa), (b, fb), (c, fc)]
          [(a, sa), (b, sb), (c, sc)] nn max_mz := by
      rw [singleton_candidates, hG]
      apply List.filter_eq_self.mpr
      intro x hx
      simp [emptyGraph]
    rw [hsing, hfl_len, num_connected_3]
    norm_num
  have hk : (([(a, fa), (b, fb), (c, fc)] : List (α × Feature)).map
      Prod.fst).Nodup := by
    simpa using habc_nodup
  constructor
  · rw [create_network_nodes_count _ _ _ _ _ hk, hsc, hss_len]
    simp
  · rw [create_network]
    rw [if_neg (by rw [hall]; simp), if_neg (by rw [hpool]; simp)]
    simp only [induced_subgraph, graph_plus_singletons, hG, emptyGraph]
    rfl

/-- Three features in ascending m/z order with pairwise disjoint
single-peak spectra: all pairwise cosine similarities are 0. -/
def orthFeatures3 : List (ℕ × Feature) :=
  [(0, ⟨100, 0, 1, "", false⟩), (1, ⟨110, 0, 1, "", false⟩),
   (2, ⟨120, 0, 1, "", false⟩)]

/-- Fragment table for `orthFeatures3`: three pairwise disjoint
spectra. -/
def orthSpectra3 : List (ℕ × Spectrum) :=
  [(0, [(10, 1)]), (1, [(20, 1)]), (2, [(30, 1)])]

/-- C2 counterexample: three features under the m/z ceiling whose
spectra have all pairwise cosine similarities 0, run at threshold 0.7 —
the resulting network has 1 node, not the 3 the claim asserts: the
singleton allowance is `3 - int(3*0.7) = 1`. -/
theorem C2_counterexample :
    cosine_similarity_ms2 [((10 : ℚ), (1 : ℚ))] [((20 : ℚ), (1 : ℚ))] (1 / 50) = 0 ∧
    cosine_similarity_ms2 [((10 : ℚ), (1 : ℚ))] [((30 : ℚ), (1 : ℚ))] (1 / 50) = 0 ∧
    cosine_similarity_ms2 [((20 : ℚ), (1 : ℚ))] [((30 : ℚ), (1 : ℚ))] (1 / 50) = 0 ∧
    (create_network orthFeatures3 orthSpectra3 50 (7 / 10) 500).1.nodes.length = 1 ∧
    (create_network orthFeatures3 orthSpectra3 50 (7 / 10) 500).1.nodes.length ≠ 3 := by
  refine ⟨cosine_eq_zero_of_dotProd_zero _ _ _ (by
      norm_num [alignSpectra, alignGo, intensities, dotProd]),
    cosine_eq_zero_of_dotProd_zero _ _ _ (by
      norm_num [alignSpectra, alignGo, intensities, dotProd]),
    cosine_eq_zero_of_dotProd_zero _ _ _ (by
      norm_num [alignSpectra, alignGo, intensities, dotProd]), ?_⟩
  have hALL : features_with_ms2_all orthFeatures3 orthSpectra3 = orthFeatures3 := by
    norm_num [features_with_ms2_all, orthFeatures3, orthSpectra3, alookup]
  have hPOOL : features_with_ms2 orthFeatures3 orthSpectra3 500 = orthFeatures3 := by
    norm_num [features_with_ms2, features_with_ms2_all, orthFeatures3,
      orthSpectra3, alookup]
  have h : (create_network orthFeatures3 orthSpectra3 50 (7 / 10) 500).1.nodes.length = 1 := by
    unfold create_network
    rw [hALL, hPOOL, if_neg (by simp [orthFeatures3]),
      if_neg (by simp [orthFeatures3])]
    norm_num [orthFeatures3, orthSpectra3, connected_nodes_sorted,
      connected_nodes_of, similarity_graph, buildGraph, upperPairs, spectrumOf,
      alookup, feature_list, sorted_features, features_with_ms2,
      features_with_ms2_all, clamped_num_nodes, simGE, alignSpectra, alignGo,
      intensities, dotProd, normSq, addEdge, addNodeIfAbsent, emptyGraph, degree,
      selected_connected, selected_singletons, singleton_candidates,
      num_connected_3, selected_nodes, graph_plus_singletons, induced_subgraph]
  exact ⟨h, by rw [h]; norm_num⟩

/-- C2 witness: the amended statement applied to a concrete
three-feature table with pairwise disjoint spectra, all hypotheses
discharged there. -/
theorem C2_three_orthogonal_features_witness :
    (create_network [((0 : ℕ), (⟨100, 0, 1, "", false⟩ : Feature)),
        (1, ⟨110, 0, 1, "", false⟩), (2, ⟨120, 0, 1, "", false⟩)]
      [((0 : ℕ), [((10 : ℚ), (1 : ℚ))]), (1, [((20 : ℚ), (1 : ℚ))]),
        (2, [((30 : ℚ), (1 : ℚ))])] 50 (7 / 10) 500).1.nodes.length = 1 ∧
    (create_network [((0 : ℕ), (⟨100, 0, 1, "", false⟩ : Feature)),
        (1, ⟨110, 0, 1, "", false⟩), (2, ⟨120, 0, 1, "", false⟩)]
      [((0 : ℕ), [((10 : ℚ), (1 : ℚ))]), (1, [((20 : ℚ), (1 : ℚ))]),
        (2, [((30 : ℚ), (1 : ℚ))])] 50 (7 / 10) 500).1.edges = [] :=
  C2_three_orthogonal_features 0 1 2 ⟨100, 0, 1, "", false⟩
    ⟨110, 0, 1, "", false⟩ ⟨120, 0, 1, "", false⟩
    [((10 : ℚ), (1 : ℚ))] [((20 : ℚ), (1 : ℚ))] [((30 : ℚ), (1 : ℚ))] 50 500
    (by norm_num) (by norm_num) (by norm_num)
    (by norm_num) (by norm_num) (by norm_num) (by norm_num)
    (cosine_eq_zero_of_dotProd_zero _ _ _ (by
      norm_num [alignSpectra, alignGo, intensities, dotProd]))
    (cosine_eq_zero_of_dotProd_zero _ _ _ (by
      norm_num [alignSpectra, alignGo, intensities, dotProd]))
    (cosine_eq_zero_of_dotProd_zero _ _ _ (by
      norm_num [alignSpectra, alignGo, intensities, dotProd]))
    (cosine_eq_zero_of_dotProd_zero _ _ _ (by
      norm_num [alignSpectra, alignGo, intensities, dotProd]))
    (cosine_eq_zero_of_dotProd_zero _ _ _ (by
      norm_num [alignSpectra, alignGo, intensities, dotProd]))
    (cosine_eq_zero_of_dotProd_zero _ _ _ (by
      norm_num [alignSpectra, alignGo, intensities, dotProd]))

end Msplot
